import Mathlib

/-!
# A verification development for the godb in-memory storage engine

Shallow embedding of the `engine` package: values, rows, hash indexes,
tables, the constraint checker, the CRUD entry points and the join
algorithm, each translated from the corresponding Go function, followed by
theorems about the specified properties.
-/

set_option maxHeartbeats 1000000

namespace GoDB

/-- A dynamically typed scalar value: the closed set of types the engine
stores in a row (`interface{}` restricted to int, string, bool and nil). -/
inductive Value where
  | int (n : Int)
  | str (s : String)
  | bool (b : Bool)
  | null
deriving DecidableEq, Repr

/-- A row: a name-keyed mapping from column name to value, embedded as an
association list (`Row` is `map[string]interface{}` in the source). -/
structure Row where
  entries : List (String × Value)
deriving DecidableEq, Repr

/-- `Row.Get`: retrieves a value from the row by column name, with the
second component of Go's `(value, ok)` pair embedded in the `Option`. -/
def Row.get (r : Row) (column : String) : Option Value :=
  (r.entries.find? (fun kv => kv.1 == column)).map (fun kv => kv.2)

/-- `Row.Set`: sets a value in the row for a given column (map assignment:
replaces the binding if the key is present, otherwise adds it). -/
def Row.set (r : Row) (column : String) (value : Value) : Row :=
  if r.entries.any (fun kv => kv.1 == column) then
    ⟨r.entries.map (fun kv => if kv.1 == column then (kv.1, value) else kv)⟩
  else
    ⟨r.entries ++ [(column, value)]⟩

/-- `Row.Copy`: a deep copy; in a pure model the copy has the same content. -/
def Row.copy (r : Row) : Row := r

/-- Reading a Go map with the `ok` flag discarded: an absent key yields the
zero value, the nil interface (`oldValue, _ := row.Get(col)`). -/
def Row.getValue (r : Row) (column : String) : Value :=
  (r.get column).getD Value.null

/-- The row stored at a position (positions are always in range where this
is used; the default is never observed). -/
def rowAt (rows : List Row) (p : Nat) : Row := rows.getD p ⟨[]⟩

/-- Column type tags (`TypeInt`, `TypeString`, `TypeBool`). -/
inductive ColumnType where
  | tInt
  | tString
  | tBool
deriving DecidableEq, Repr

/-- A table column with its schema flags. -/
structure Column where
  name : String
  type : ColumnType
  primaryKey : Bool := false
  unique : Bool := false
  notNull : Bool := false
deriving DecidableEq, Repr

/-- A hash-based index for a column: `data` embeds Go's
`map[interface{}][]int` as a partial function from value to bucket
(`none` = key absent from the map). -/
structure Index where
  column : String
  data : Value → Option (List Nat)

/-- `NewIndex`. -/
def NewIndex (column : String) : Index :=
  { column := column, data := fun _ => none }

/-- `Index.Add`: appends a row position to the value's bucket; nil values
are never indexed. A missing key reads as the empty slice, as in Go. -/
def Index.add (idx : Index) (value : Value) (rowIndex : Nat) : Index :=
  if value = Value.null then idx
  else
    { idx with
      data := fun v =>
        if v = value then some (((idx.data value).getD []) ++ [rowIndex])
        else idx.data v }

/-- `Index.Remove`: filters the position out of the value's bucket and
deletes the bucket entirely when it becomes empty. -/
def Index.remove (idx : Index) (value : Value) (rowIndex : Nat) : Index :=
  if value = Value.null then idx
  else
    match idx.data value with
    | none => idx
    | some indices =>
      let newIndices := indices.filter (fun i => i ≠ rowIndex)
      if newIndices = [] then
        { idx with data := fun v => if v = value then none else idx.data v }
      else
        { idx with data := fun v => if v = value then some newIndices else idx.data v }

/-- `Index.Lookup`: all row positions for the value; empty for nil or for a
value absent from the map. -/
def Index.lookup (idx : Index) (value : Value) : List Nat :=
  if value = Value.null then [] else (idx.data value).getD []

/-- `Index.Update`: remove under the old value then add under the new. -/
def Index.update (idx : Index) (oldValue newValue : Value) (rowIndex : Nat) : Index :=
  (idx.remove oldValue rowIndex).add newValue rowIndex

/-- `Index.Has`: key-existence check, false for nil. -/
def Index.has (idx : Index) (value : Value) : Bool :=
  if value = Value.null then false else (idx.data value).isSome

/-- Error taxonomy of the engine (`errors.go`). -/
inductive DBError where
  | tableNotFound (tableName : String)
  | tableAlreadyExists (tableName : String)
  | primaryKeyViolation (tableName key : String) (value : Value)
  | uniqueViolation (tableName column : String) (value : Value)
  | columnNotFound (tableName columnName : String)
  | missingRequiredColumn (tableName columnName : String)
deriving DecidableEq, Repr

/-- A table: schema, dense position-addressed row storage, the single
primary-key column name (`""` when there is none, Go's zero value), and the
column-name-keyed map of indexes. -/
structure Table where
  name : String
  schema : List Column
  rows : List Row
  primaryKey : String
  indexes : List (String × Index)

/-- `Table.GetIndex`. -/
def Table.getIndex (t : Table) (columnName : String) : Option Index :=
  (t.indexes.find? (fun kv => kv.1 == columnName)).map (fun kv => kv.2)

/-- `Table.hasColumn`. -/
def Table.hasColumn (t : Table) (columnName : String) : Bool :=
  t.schema.any (fun col => col.name == columnName)

/-- The `for colName, idx := range t.indexes` loops that rewrite every
index in place, keyed by its column name. -/
def Table.mapIndexes (t : Table) (f : String → Index → Index) : Table :=
  { t with indexes := t.indexes.map (fun kv => (kv.1, f kv.1 kv.2)) }

/-- `Table.CreateIndex`: fails if the column is absent, is a no-op if an
index already exists, otherwise builds the index by one scan of the
current rows. -/
def Table.createIndex (t : Table) (columnName : String) : Except DBError Table :=
  if ¬t.hasColumn columnName then
    .error (.columnNotFound t.name columnName)
  else if (t.getIndex columnName).isSome then
    .ok t
  else
    let idx := t.rows.enum.foldl
      (fun idx p =>
        match p.2.get columnName with
        | some v => idx.add v p.1
        | none => idx)
      (NewIndex columnName)
    .ok { t with indexes := t.indexes ++ [(columnName, idx)] }

/-- `NewTable`: creates an empty table; scanning the schema, it records
every primary-key column name (overwriting the previous one) and eagerly
creates indexes for primary-key and unique columns, ignoring the
(impossible) column-not-found error as the Go code does. -/
def NewTable (name : String) (schema : List Column) : Table :=
  schema.foldl
    (fun t col =>
      if col.primaryKey then
        let t1 := { t with primaryKey := col.name }
        match t1.createIndex col.name with
        | .ok t2 => t2
        | .error _ => t1
      else if col.unique then
        match t.createIndex col.name with
        | .ok t2 => t2
        | .error _ => t
      else t)
    { name := name, schema := schema, rows := [], primaryKey := "", indexes := [] }

/-- `Table.hasPrimaryKeyValue`: index-backed existence check with a
linear-scan fallback. -/
def Table.hasPrimaryKeyValue (t : Table) (value : Value) : Bool :=
  if t.primaryKey == "" then false
  else
    match t.getIndex t.primaryKey with
    | some idx => idx.has value
    | none =>
      t.rows.any (fun row =>
        match row.get t.primaryKey with
        | some rowValue => rowValue == value
        | none => false)

/-- `Table.hasUniqueValue`. -/
def Table.hasUniqueValue (t : Table) (columnName : String) (value : Value) : Bool :=
  match t.getIndex columnName with
  | some idx => idx.has value
  | none =>
    t.rows.any (fun row =>
      match row.get columnName with
      | some rowValue => rowValue == value
      | none => false)

/-- `Table.addRow`: appends the row and adds its non-absent values to every
index, returning the new row's position. -/
def Table.addRow (t : Table) (row : Row) : Table × Nat :=
  let rowIndex := t.rows.length
  let t1 := { t with rows := t.rows ++ [row] }
  let t2 := t1.mapIndexes (fun colName idx =>
    match row.get colName with
    | some v => idx.add v rowIndex
    | none => idx)
  (t2, rowIndex)

/-- `Table.updateRow`: updates every index whose column's value differs
between the old and the new row (values read with the `ok` flag discarded),
then replaces the stored row. -/
def Table.updateRow (t : Table) (rowIndex : Nat) (newRow : Row) : Table :=
  let oldRow := t.rows.getD rowIndex ⟨[]⟩
  let t1 := t.mapIndexes (fun colName idx =>
    let oldValue := oldRow.getValue colName
    let newValue := newRow.getValue colName
    if oldValue ≠ newValue then idx.update oldValue newValue rowIndex else idx)
  { t1 with rows := t.rows.set rowIndex newRow }

/-- `Table.deleteRow`: removes the row's contribution from every index,
then swap-removes — unless the removed row is the last one, the last row
is moved into the vacated position and every index entry for the moved
row is rewritten from the old last position to the new one. -/
def Table.deleteRow (t : Table) (rowIndex : Nat) : Table :=
  let row := t.rows.getD rowIndex ⟨[]⟩
  let t1 := t.mapIndexes (fun colName idx =>
    match row.get colName with
    | some v => idx.remove v rowIndex
    | none => idx)
  let lastIndex := t.rows.length - 1
  if rowIndex ≠ lastIndex then
    let movedRow := t.rows.getD lastIndex ⟨[]⟩
    let t2 := t1.mapIndexes (fun colName idx =>
      match movedRow.get colName with
      | some v => (idx.remove v lastIndex).add v rowIndex
      | none => idx)
    { t2 with rows := (t.rows.set rowIndex movedRow).dropLast }
  else
    { t1 with rows := t.rows.dropLast }

/-- A WHERE-clause condition. -/
structure Condition where
  column : String
  operator : String
  value : Value
deriving DecidableEq, Repr

/-- `compareValues`: three-way ordering defined only for two ints or two
strings; every other pair reports 0. -/
def compareValues (a b : Value) : Int :=
  match a, b with
  | .int av, .int bv => if av < bv then -1 else if av > bv then 1 else 0
  | .str av, .str bv => if av < bv then -1 else if av > bv then 1 else 0
  | _, _ => 0

/-- `evaluateCondition`: false when the row lacks the column; `=`/`!=` use
interface equality; ordering operators go through `compareValues`. -/
def evaluateCondition (row : Row) (cond : Condition) : Bool :=
  match row.get cond.column with
  | none => false
  | some value =>
    if cond.operator == "=" then value == cond.value
    else if cond.operator == "!=" then value != cond.value
    else if cond.operator == ">" then compareValues value cond.value > 0
    else if cond.operator == "<" then compareValues value cond.value < 0
    else if cond.operator == ">=" then compareValues value cond.value ≥ 0
    else if cond.operator == "<=" then compareValues value cond.value ≤ 0
    else false

/-- Whether a row passes an optional condition: a nil condition passes
every row (`condition != nil && !evaluateCondition(...)` guards). -/
def rowMatches (cond : Option Condition) (row : Row) : Bool :=
  match cond with
  | some c => evaluateCondition row c
  | none => true

/-- `ValidateInsert` phase 1: the primary-key check. -/
def checkInsertPK (t : Table) (row : Row) : Option DBError :=
  if t.primaryKey ≠ "" then
    match row.get t.primaryKey with
    | none => some (.missingRequiredColumn t.name t.primaryKey)
    | some pkValue =>
      if t.hasPrimaryKeyValue pkValue then
        some (.primaryKeyViolation t.name t.primaryKey pkValue)
      else none
  else none

/-- `ValidateInsert` phase 2: the unique checks, first violation in schema
order. -/
def checkInsertUnique (t : Table) (row : Row) : Option DBError :=
  t.schema.findSome? (fun col =>
    if col.unique && col.name != t.primaryKey then
      match row.get col.name with
      | some value =>
        if t.hasUniqueValue col.name value then
          some (.uniqueViolation t.name col.name value)
        else none
      | none => none
    else none)

/-- Phase 3 of both validators: the not-null checks, first violation in
schema order. -/
def checkNotNull (t : Table) (row : Row) : Option DBError :=
  t.schema.findSome? (fun col =>
    if col.notNull || col.primaryKey then
      match row.get col.name with
      | none => some (.missingRequiredColumn t.name col.name)
      | some v =>
        if v = Value.null then some (.missingRequiredColumn t.name col.name)
        else none
    else none)

/-- `ConstraintChecker.ValidateInsert`: primary-key check, then unique
checks, then not-null checks; the first violation is returned. -/
def ValidateInsert (t : Table) (row : Row) : Option DBError :=
  match checkInsertPK t row with
  | some e => some e
  | none =>
    match checkInsertUnique t row with
    | some e => some e
    | none => checkNotNull t row

/-- `ValidateUpdate` phase 1: the primary-key check, skipped when the key
value is unchanged. -/
def checkUpdatePK (t : Table) (oldRow newRow : Row) : Option DBError :=
  if t.primaryKey ≠ "" then
    let oldPK := oldRow.getValue t.primaryKey
    let newPK := newRow.getValue t.primaryKey
    if oldPK ≠ newPK && t.hasPrimaryKeyValue newPK then
      some (.primaryKeyViolation t.name t.primaryKey newPK)
    else none
  else none

/-- `ValidateUpdate` phase 2: unique checks, skipped when unchanged. -/
def checkUpdateUnique (t : Table) (oldRow newRow : Row) : Option DBError :=
  t.schema.findSome? (fun col =>
    if col.unique && col.name != t.primaryKey then
      let oldValue := oldRow.getValue col.name
      match newRow.get col.name with
      | some newValue =>
        if oldValue ≠ newValue && t.hasUniqueValue col.name newValue then
          some (.uniqueViolation t.name col.name newValue)
        else none
      | none => none
    else none)

/-- `ConstraintChecker.ValidateUpdate`: the three phases applied to the new
row, with existence checks skipped for unchanged values. -/
def ValidateUpdate (t : Table) (oldRow newRow : Row) : Option DBError :=
  match checkUpdatePK t oldRow newRow with
  | some e => some e
  | none =>
    match checkUpdateUnique t oldRow newRow with
    | some e => some e
    | none => checkNotNull t newRow

/-- `projectRow`: the whole row (copied) when no columns are requested,
otherwise a new row of just the requested columns that exist. -/
def projectRow (row : Row) (columns : List String) : Row :=
  if columns = [] then row.copy
  else
    columns.foldl
      (fun result col =>
        match row.get col with
        | some value => result.set col value
        | none => result)
      ⟨[]⟩

/-- `Database.Select` after table resolution: candidate positions come
from the index when the condition is an equality on an indexed column,
otherwise from a full scan; each candidate is bounds-checked, re-filtered
by the condition and projected. -/
def Table.selectRows (t : Table) (columns : List String) (condition : Option Condition) :
    List Row :=
  let candidateIndices : List Nat :=
    match condition with
    | some cond =>
      if cond.operator == "=" then
        match t.getIndex cond.column with
        | some idx => idx.lookup cond.value
        | none => List.range t.rows.length
      else List.range t.rows.length
    | none => List.range t.rows.length
  candidateIndices.filterMap (fun i =>
    match t.rows.get? i with
    | none => none
    | some row =>
      if rowMatches condition row then some (projectRow row columns)
      else none)

/-- The full-scan branch of `Select` alone (`useIndex == false`): every
position is a candidate. -/
def Table.scanRows (t : Table) (columns : List String) (condition : Option Condition) :
    List Row :=
  (List.range t.rows.length).filterMap (fun i =>
    match t.rows.get? i with
    | none => none
    | some row =>
      if rowMatches condition row then some (projectRow row columns)
      else none)

/-- Overlaying the updates on a copy of a row
(`newRow := row.Copy(); for col, val := range updates ...`). -/
def overlay (row updates : Row) : Row :=
  updates.entries.foldl (fun r kv => r.set kv.1 kv.2) row.copy

lemma Table.mapIndexes_rows (t : Table) (f : String → Index → Index) :
    (t.mapIndexes f).rows = t.rows := rfl

lemma Table.updateRow_rows (t : Table) (rowIndex : Nat) (newRow : Row) :
    (t.updateRow rowIndex newRow).rows = t.rows.set rowIndex newRow := rfl

lemma Table.updateRow_length (t : Table) (rowIndex : Nat) (newRow : Row) :
    (t.updateRow rowIndex newRow).rows.length = t.rows.length := by
  simp [Table.updateRow_rows]

/-- The body of `Database.Update`'s forward loop from position `i`: skip
rows failing the condition, validate the overlaid row against the current
table, abort with the partial count on failure, otherwise update in place.
The loop runs until `i` reaches the row count, which `updateRow` never
changes; the structural `fuel` argument, initialized to the row count,
bounds the remaining iterations so that the recursion is structural. -/
def Table.updateLoop (updates : Row) (condition : Option Condition) :
    Nat → Nat → Nat → Table → Table × Nat × Option DBError
  | 0, _, rowsAffected, t => (t, rowsAffected, none)
  | fuel + 1, i, rowsAffected, t =>
    if i < t.rows.length then
      let row := rowAt t.rows i
      if ¬rowMatches condition row then
        Table.updateLoop updates condition fuel (i + 1) rowsAffected t
      else
        let newRow := overlay row updates
        match ValidateUpdate t row newRow with
        | some e => (t, rowsAffected, some e)
        | none =>
          Table.updateLoop updates condition fuel (i + 1) (rowsAffected + 1)
            (t.updateRow i newRow)
    else
      (t, rowsAffected, none)

/-- `Database.Update` after table resolution. -/
def Table.updateRows (t : Table) (updates : Row) (condition : Option Condition) :
    Table × Nat × Option DBError :=
  Table.updateLoop updates condition t.rows.length 0 0 t

/-- The body of `Database.Delete`'s backwards loop: called with `i + 1`,
it examines position `i`, deletes the row when it matches, and recurses
on `i`. -/
def Table.deleteLoop (t : Table) (condition : Option Condition) : Nat → Table × Nat
  | 0 => (t, 0)
  | i + 1 =>
    let row := rowAt t.rows i
    if ¬rowMatches condition row then
      t.deleteLoop condition i
    else
      let t2 := t.deleteRow i
      let r := t2.deleteLoop condition i
      (r.1, r.2 + 1)

/-- `Database.Delete` after table resolution: iterate positions from last
to first, removing every matching row. -/
def Table.deleteRows (t : Table) (condition : Option Condition) : Table × Nat :=
  t.deleteLoop condition t.rows.length

/-- The condition for joining two tables. -/
structure JoinCondition where
  leftColumn : String
  rightColumn : String
deriving DecidableEq, Repr

/-- `mergeRows`: combines two rows, prefixing every column name with its
table name. -/
def mergeRows (left right : Row) (leftTable rightTable : String) : Row :=
  let result := left.entries.foldl
    (fun r kv => r.set (leftTable ++ "." ++ kv.1) kv.2) ⟨[]⟩
  right.entries.foldl
    (fun r kv => r.set (rightTable ++ "." ++ kv.1) kv.2) result

/-- `Database.InnerJoin` after resolving the two tables: verify the join
columns, then for every left row with a present non-nil join value collect
the matching right positions (index lookup when the right table has an
index on the join column, else a linear scan), merge each pair and
optionally project. -/
def innerJoinRows (left right : Table) (leftTable rightTable : String)
    (condition : JoinCondition) (selectColumns : List String) :
    Except DBError (List Row) :=
  if ¬left.hasColumn condition.leftColumn then
    .error (.columnNotFound leftTable condition.leftColumn)
  else if ¬right.hasColumn condition.rightColumn then
    .error (.columnNotFound rightTable condition.rightColumn)
  else
    let rightIndex := right.getIndex condition.rightColumn
    .ok <| left.rows.flatMap (fun leftRow =>
      match leftRow.get condition.leftColumn with
      | none => []
      | some leftValue =>
        if leftValue = Value.null then []
        else
          let matchingRightIndices : List Nat :=
            match rightIndex with
            | some idx => idx.lookup leftValue
            | none =>
              right.rows.enum.filterMap (fun p =>
                match p.2.get condition.rightColumn with
                | some rightValue =>
                  if rightValue == leftValue then some p.1 else none
                | none => none)
          matchingRightIndices.filterMap (fun rightIdx =>
            match right.rows.get? rightIdx with
            | none => none
            | some rightRow =>
              let joinedRow := mergeRows leftRow rightRow leftTable rightTable
              some (if selectColumns ≠ [] then
                  selectColumns.foldl
                    (fun pr col =>
                      match joinedRow.get col with
                      | some value => pr.set col value
                      | none => pr)
                    ⟨[]⟩
                else joinedRow)))

/-! ## Basic lemmas about rows and indexes -/

lemma Row.getValue_eq_iff (r : Row) (c : String) (v : Value) (hv : v ≠ Value.null) :
    r.getValue c = v ↔ r.get c = some v := by
  unfold Row.getValue
  cases h : r.get c with
  | none =>
    simp only [Option.getD_none]
    constructor
    · intro h1; exact absurd h1.symm hv
    · intro h1; cases h1
  | some w => simp

lemma Index.lookup_null (idx : Index) : idx.lookup Value.null = [] := by
  simp [Index.lookup]

lemma Index.lookup_add (idx : Index) (w : Value) (q : Nat) (v : Value) :
    (idx.add w q).lookup v =
      if v = w ∧ w ≠ Value.null then idx.lookup v ++ [q] else idx.lookup v := by
  by_cases hw : w = Value.null
  · simp [Index.add, hw]
  · by_cases hv : v = Value.null
    · subst hv
      have hvw : Value.null ≠ w := fun h => hw h.symm
      simp [Index.lookup_null, hvw]
    · by_cases hvw : v = w
      · subst hvw
        simp [Index.add, Index.lookup, hw, hv]
      · have : ¬(v = w ∧ w ≠ Value.null) := fun h => hvw h.1
        simp only [Index.add, if_neg hw, Index.lookup, if_neg hv, if_neg hvw,
          if_neg this]

lemma Index.lookup_remove (idx : Index) (w : Value) (q : Nat) (v : Value) :
    (idx.remove w q).lookup v =
      if v = w then (idx.lookup v).filter (fun i => i ≠ q) else idx.lookup v := by
  by_cases hw : w = Value.null
  · subst hw
    by_cases hv : v = Value.null
    · subst hv
      simp [Index.remove, Index.lookup_null]
    · simp [Index.remove, hv, fun h => hv h]
  · unfold Index.remove
    simp only [if_neg hw]
    cases hd : idx.data w with
    | none =>
      by_cases hvw : v = w
      · subst hvw
        simp [Index.lookup, hw, hd]
      · simp [hvw]
    | some indices =>
      dsimp only
      by_cases hvw : v = w
      · subst hvw
        by_cases hemp : indices.filter (fun i => i ≠ q) = []
        · rw [if_pos hemp]
          simp only [Index.lookup, if_neg hw, if_pos rfl, hd, Option.getD_none,
            Option.getD_some]
          exact hemp.symm
        · rw [if_neg hemp]
          simp [Index.lookup, hw, hd]
      · by_cases hemp : indices.filter (fun i => i ≠ q) = []
        · rw [if_pos hemp]
          have hvw2 : v ≠ w := hvw
          by_cases hv : v = Value.null <;> simp [Index.lookup, hv, hvw, hvw2]
        · rw [if_neg hemp]
          by_cases hv : v = Value.null <;> simp [Index.lookup, hv, hvw]

lemma Index.mem_lookup_add (idx : Index) (w : Value) (q : Nat) (v : Value) (p : Nat) :
    p ∈ (idx.add w q).lookup v ↔
      p ∈ idx.lookup v ∨ (w ≠ Value.null ∧ v = w ∧ p = q) := by
  rw [Index.lookup_add]
  by_cases h : v = w ∧ w ≠ Value.null
  · rw [if_pos h]
    simp only [List.mem_append, List.mem_singleton]
    tauto
  · rw [if_neg h]
    constructor
    · exact Or.inl
    · rintro (hm | ⟨h1, h2, h3⟩)
      · exact hm
      · exact absurd ⟨h2, h1⟩ h

lemma Index.mem_lookup_remove (idx : Index) (w : Value) (q : Nat) (v : Value) (p : Nat) :
    p ∈ (idx.remove w q).lookup v ↔ p ∈ idx.lookup v ∧ ¬(v = w ∧ p = q) := by
  rw [Index.lookup_remove]
  by_cases hvw : v = w
  · subst hvw
    rw [if_pos rfl, List.mem_filter]
    simp only [ne_eq, decide_not, Bool.not_eq_true', decide_eq_false_iff_not]
    tauto
  · rw [if_neg hvw]
    tauto

lemma Index.nodup_lookup_add (idx : Index) (w : Value) (q : Nat)
    (h : ∀ v, (idx.lookup v).Nodup) (hq : q ∉ idx.lookup w) :
    ∀ v, ((idx.add w q).lookup v).Nodup := by
  intro v
  rw [Index.lookup_add]
  by_cases hc : v = w ∧ w ≠ Value.null
  · rw [if_pos hc]
    rw [List.nodup_append]
    refine ⟨h v, List.nodup_singleton q, ?_⟩
    intro a ha hb
    rw [List.mem_singleton] at hb
    subst hb
    rw [hc.1] at ha
    exact hq ha
  · rw [if_neg hc]
    exact h v

lemma Index.nodup_lookup_remove (idx : Index) (w : Value) (q : Nat)
    (h : ∀ v, (idx.lookup v).Nodup) : ∀ v, ((idx.remove w q).lookup v).Nodup := by
  intro v
  rw [Index.lookup_remove]
  by_cases hvw : v = w
  · rw [if_pos hvw]
    exact (h v).filter _
  · rw [if_neg hvw]
    exact h v

lemma find?_map_keyed {β : Type} (l : List (String × β)) (f : String → β → β) (c : String) :
    ((l.map (fun kv => (kv.1, f kv.1 kv.2))).find? (fun kv => kv.1 == c)).map
        (fun kv => kv.2)
      = ((l.find? (fun kv => kv.1 == c)).map (fun kv => kv.2)).map (f c) := by
  induction l with
  | nil => simp
  | cons kv rest ih =>
    by_cases hk : kv.1 = c
    · subst hk
      simp [List.find?_cons]
    · have hbeq : (kv.1 == c) = false := by simpa using hk
      simp only [List.map_cons, List.find?_cons, hbeq]
      exact ih

lemma Table.getIndex_mapIndexes (t : Table) (f : String → Index → Index) (c : String) :
    (t.mapIndexes f).getIndex c = (t.getIndex c).map (f c) := by
  unfold Table.mapIndexes Table.getIndex
  exact find?_map_keyed t.indexes f c

/-! ## The index-consistency invariant -/

lemma rowAt_append_lt (l1 l2 : List Row) (p : Nat) (h : p < l1.length) :
    rowAt (l1 ++ l2) p = rowAt l1 p := by
  unfold rowAt
  rw [List.getD_eq_getElem?_getD, List.getD_eq_getElem?_getD,
    List.getElem?_append, if_pos h]

lemma rowAt_append_self (l : List Row) (r : Row) : rowAt (l ++ [r]) l.length = r := by
  unfold rowAt
  rw [List.getD_eq_getElem?_getD, List.getElem?_append_right (Nat.le_refl _)]
  simp

lemma rowAt_set_self (l : List Row) (p : Nat) (r : Row) (h : p < l.length) :
    rowAt (l.set p r) p = r := by
  unfold rowAt
  rw [List.getD_eq_getElem?_getD, List.getElem?_set_self]
  · rfl
  · exact h

lemma rowAt_set_ne (l : List Row) (p q : Nat) (r : Row) (h : p ≠ q) :
    rowAt (l.set p r) q = rowAt l q := by
  unfold rowAt
  rw [List.getD_eq_getElem?_getD, List.getD_eq_getElem?_getD, List.getElem?_set_ne h]

lemma rowAt_dropLast (l : List Row) (p : Nat) (h : p < l.length - 1) :
    rowAt l.dropLast p = rowAt l p := by
  unfold rowAt
  rw [List.getD_eq_getElem?_getD, List.getD_eq_getElem?_getD,
    List.dropLast_eq_take, List.getElem?_take_of_lt h]

/-- Consistency of one index with the row storage: every bucket entry
points in-range at a row holding that non-null value in the indexed
column, every stored non-null value is found in its bucket, and buckets
are position sets (duplicate-free). -/
def IndexOK (rows : List Row) (c : String) (idx : Index) : Prop :=
  (∀ v p, p ∈ idx.lookup v →
      v ≠ Value.null ∧ p < rows.length ∧ (rowAt rows p).get c = some v)
  ∧ (∀ v p, p < rows.length → v ≠ Value.null →
      (rowAt rows p).get c = some v → p ∈ idx.lookup v)
  ∧ (∀ v, (idx.lookup v).Nodup)

/-- Consistency of every index of a table with its rows. -/
def TableOK (t : Table) : Prop :=
  ∀ c idx, t.getIndex c = some idx → IndexOK t.rows c idx

lemma Index.lookup_newIndex (c : String) (v : Value) : (NewIndex c).lookup v = [] := by
  simp [NewIndex, Index.lookup]

/-- The index-building step of `CreateIndex`'s backfill scan. -/
def buildStep (c : String) (idx : Index) (q : Nat × Row) : Index :=
  match q.2.get c with
  | some v => idx.add v q.1
  | none => idx

lemma foldAdd_mem (c : String) (l : List (Nat × Row)) (idx0 : Index) (v : Value) (p : Nat) :
    p ∈ ((l.foldl (buildStep c) idx0).lookup v) ↔
      p ∈ idx0.lookup v ∨ (v ≠ Value.null ∧ ∃ r, (p, r) ∈ l ∧ r.get c = some v) := by
  induction l generalizing idx0 with
  | nil => simp
  | cons q rest ih =>
    rw [List.foldl_cons, ih]
    constructor
    · rintro (hm | hrest)
      · unfold buildStep at hm
        cases hq : q.2.get c with
        | none =>
          rw [hq] at hm
          exact Or.inl hm
        | some w =>
          rw [hq] at hm
          rcases (Index.mem_lookup_add idx0 w q.1 v p).mp hm with hm2 | ⟨hw, hvw, hpq⟩
          · exact Or.inl hm2
          · subst hvw
            refine Or.inr ⟨hw, q.2, ?_, hq⟩
            rw [hpq]
            exact List.mem_cons_self _ _
      · rcases hrest with ⟨hv, r, hr, hget⟩
        exact Or.inr ⟨hv, r, List.mem_cons_of_mem _ hr, hget⟩
    · rintro (hm | ⟨hv, r, hr, hget⟩)
      · left
        unfold buildStep
        cases hq : q.2.get c with
        | none => exact hm
        | some w => exact (Index.mem_lookup_add idx0 w q.1 v p).mpr (Or.inl hm)
      · rcases List.mem_cons.mp hr with heq | hr2
        · left
          subst heq
          unfold buildStep
          dsimp only
          rw [hget]
          exact (Index.mem_lookup_add idx0 v p v p).mpr (Or.inr ⟨hv, rfl, rfl⟩)
        · exact Or.inr ⟨hv, r, hr2, hget⟩

lemma foldAdd_nodup (c : String) (l : List (Nat × Row)) (idx0 : Index)
    (h0 : ∀ v, (idx0.lookup v).Nodup)
    (hfresh : ∀ v p, p ∈ idx0.lookup v → ∀ r, (p, r) ∉ l)
    (hkeys : (l.map Prod.fst).Nodup) :
    ∀ v, ((l.foldl (buildStep c) idx0).lookup v).Nodup := by
  induction l generalizing idx0 with
  | nil => exact h0
  | cons q rest ih =>
    rw [List.foldl_cons]
    rw [List.map_cons, List.nodup_cons] at hkeys
    apply ih
    · intro v
      unfold buildStep
      cases hq : q.2.get c with
      | none => exact h0 v
      | some w =>
        apply Index.nodup_lookup_add idx0 w q.1 h0
        intro hmem
        exact hfresh w q.1 hmem q.2 (List.mem_cons_self _ _)
    · intro v p hp r hr
      unfold buildStep at hp
      cases hq : q.2.get c with
      | none =>
        rw [hq] at hp
        exact hfresh v p hp r (List.mem_cons_of_mem _ hr)
      | some w =>
        rw [hq] at hp
        rcases (Index.mem_lookup_add idx0 w q.1 v p).mp hp with hm | ⟨-, -, hpq⟩
        · exact hfresh v p hm r (List.mem_cons_of_mem _ hr)
        · subst hpq
          exact hkeys.1 (List.mem_map.mpr ⟨(q.1, r), hr, rfl⟩)
    · exact hkeys.2

lemma find?_append_keyed {β : Type} (l1 l2 : List (String × β)) (c : String) :
    (l1 ++ l2).find? (fun kv => kv.1 == c) =
      match l1.find? (fun kv => kv.1 == c) with
      | some kv => some kv
      | none => l2.find? (fun kv => kv.1 == c) := by
  induction l1 with
  | nil => simp
  | cons kv rest ih =>
    by_cases hk : kv.1 = c
    · subst hk
      simp [List.find?_cons]
    · have hbeq : (kv.1 == c) = false := by simpa using hk
      simp only [List.cons_append, List.find?_cons, hbeq]
      exact ih

/-- `CreateIndex` preserves index consistency: the backfilled index is
consistent with the rows it scanned, and existing indexes are untouched. -/
lemma createIndex_tableOK {t : Table} {c : String} {t2 : Table}
    (hok : TableOK t) (h : t.createIndex c = .ok t2) : TableOK t2 := by
  unfold Table.createIndex at h
  by_cases hcol : ¬t.hasColumn c
  · rw [if_pos hcol] at h
    cases h
  · rw [if_neg hcol] at h
    by_cases hidx : (t.getIndex c).isSome
    · rw [if_pos hidx] at h
      cases h
      exact hok
    · rw [if_neg hidx] at h
      cases h
      intro c2 idx2 h2
      unfold Table.getIndex at h2
      rw [find?_append_keyed] at h2
      cases hf : t.indexes.find? (fun kv => kv.1 == c2) with
      | some kv =>
        rw [hf] at h2
        simp only [Option.map_some] at h2
        exact hok c2 idx2 (by unfold Table.getIndex; rw [hf]; simpa using h2)
      | none =>
        rw [hf] at h2
        by_cases hc2 : c = c2
        · subst hc2
          simp only [List.find?_cons, beq_self_eq_true, Option.map_some] at h2
          cases h2
          constructor
          · intro v p hp
            rw [show (fun (idx : Index) (p : Nat × Row) =>
                  match p.2.get c with
                  | some v => idx.add v p.1
                  | none => idx) = buildStep c from rfl] at hp
            rcases (foldAdd_mem c t.rows.enum (NewIndex c) v p).mp hp with hm | hm
            · rw [Index.lookup_newIndex] at hm
              cases hm
            · rcases hm with ⟨hv, r, hr, hget⟩
              rw [List.mk_mem_enum_iff_getElem?] at hr
              refine ⟨hv, ?_, ?_⟩
              · exact (List.getElem?_eq_some_iff.mp hr).1
              · unfold rowAt
                rw [List.getD_eq_getElem?_getD, hr]
                exact hget
          constructor
          · intro v p hlen hv hget
            rw [show (fun (idx : Index) (p : Nat × Row) =>
                  match p.2.get c with
                  | some v => idx.add v p.1
                  | none => idx) = buildStep c from rfl]
            apply (foldAdd_mem c t.rows.enum (NewIndex c) v p).mpr
            right
            refine ⟨hv, rowAt t.rows p, ?_, hget⟩
            rw [List.mk_mem_enum_iff_getElem?]
            unfold rowAt
            rw [List.getD_eq_getElem?_getD, List.getElem?_eq_getElem hlen]
            rfl
          · intro v
            rw [show (fun (idx : Index) (p : Nat × Row) =>
                  match p.2.get c with
                  | some v => idx.add v p.1
                  | none => idx) = buildStep c from rfl]
            apply foldAdd_nodup
            · intro v2
              rw [Index.lookup_newIndex]
              exact List.nodup_nil
            · intro v2 p hp
              rw [Index.lookup_newIndex] at hp
              cases hp
            · have : (t.rows.enum.map Prod.fst) = List.range t.rows.length := by
                simp [List.enum_map_fst]
              rw [this]
              exact List.nodup_range _
        · have hbeq : (c == c2) = false := by simpa using hc2
          simp only [List.find?_cons, hbeq, List.find?_nil, Option.map_none] at h2
          cases h2

lemma Table.getIndex_addRow (t : Table) (row : Row) (c : String) :
    (t.addRow row).1.getIndex c =
      (t.getIndex c).map (fun idx =>
        match row.get c with
        | some v => idx.add v t.rows.length
        | none => idx) := by
  unfold Table.addRow
  simp only
  rw [Table.getIndex_mapIndexes]
  rfl

/-- `addRow` preserves index consistency. -/
lemma addRow_tableOK {t : Table} (row : Row) (hok : TableOK t) :
    TableOK (t.addRow row).1 := by
  intro c idx2 h2
  rw [Table.getIndex_addRow] at h2
  cases hf : t.getIndex c with
  | none =>
    rw [hf] at h2
    cases h2
  | some idx =>
    rw [hf] at h2
    replace h2 : (match row.get c with
        | some v => idx.add v t.rows.length
        | none => idx) = idx2 := Option.some.inj h2
    have hidx := hok c idx hf
    rcases hidx with ⟨hfwd, hbwd, hnd⟩
    rw [show (t.addRow row).1.rows = t.rows ++ [row] from rfl]
    cases hget : row.get c with
    | none =>
      rw [hget] at h2
      cases h2
      constructor
      · intro v p hp
        rcases hfwd v p hp with ⟨hv, hlen, hrow⟩
        refine ⟨hv, by simp; omega, ?_⟩
        rw [rowAt_append_lt _ _ _ hlen]
        exact hrow
      constructor
      · intro v p hlen hv hrow
        simp only [List.length_append, List.length_cons, List.length_nil] at hlen
        by_cases hp : p < t.rows.length
        · rw [rowAt_append_lt _ _ _ hp] at hrow
          exact hbwd v p hp hv hrow
        · have hp2 : p = t.rows.length := by omega
          subst hp2
          rw [rowAt_append_self] at hrow
          rw [hrow] at hget
          cases hget
      · exact hnd
    | some v0 =>
      rw [hget] at h2
      cases h2
      constructor
      · intro v p hp
        rcases (Index.mem_lookup_add idx v0 t.rows.length v p).mp hp with hm | hm
        · rcases hfwd v p hm with ⟨hv, hlen, hrow⟩
          refine ⟨hv, by simp; omega, ?_⟩
          rw [rowAt_append_lt _ _ _ hlen]
          exact hrow
        · rcases hm with ⟨hv0, hvv0, hp0⟩
          subst hvv0
          subst hp0
          refine ⟨hv0, by simp, ?_⟩
          rw [rowAt_append_self]
          exact hget
      constructor
      · intro v p hlen hv hrow
        apply (Index.mem_lookup_add idx v0 t.rows.length v p).mpr
        simp only [List.length_append, List.length_cons, List.length_nil] at hlen
        by_cases hp : p < t.rows.length
        · rw [rowAt_append_lt _ _ _ hp] at hrow
          exact Or.inl (hbwd v p hp hv hrow)
        · have hp2 : p = t.rows.length := by omega
          subst hp2
          rw [rowAt_append_self] at hrow
          rw [hrow] at hget
          cases hget
          exact Or.inr ⟨hv, rfl, rfl⟩
      · intro v
        apply Index.nodup_lookup_add idx v0 t.rows.length hnd
        intro hmem
        rcases hfwd v0 t.rows.length hmem with ⟨-, hlen, -⟩
        omega

lemma Row.getValue_of_get {r : Row} {c : String} {v : Value} (h : r.get c = some v) :
    r.getValue c = v := by
  unfold Row.getValue
  rw [h]
  rfl

lemma Table.getIndex_updateRow (t : Table) (i : Nat) (newRow : Row) (c : String) :
    (t.updateRow i newRow).getIndex c =
      (t.getIndex c).map (fun idx =>
        if (rowAt t.rows i).getValue c ≠ newRow.getValue c then
          idx.update ((rowAt t.rows i).getValue c) (newRow.getValue c) i
        else idx) := by
  rw [show (t.updateRow i newRow).getIndex c =
      ((t.mapIndexes fun colName idx =>
        if (rowAt t.rows i).getValue colName ≠ newRow.getValue colName then
          idx.update ((rowAt t.rows i).getValue colName) (newRow.getValue colName) i
        else idx)).getIndex c from rfl]
  rw [Table.getIndex_mapIndexes]

/-- `updateRow` preserves index consistency. -/
lemma updateRow_tableOK {t : Table} {i : Nat} (newRow : Row)
    (hi : i < t.rows.length) (hok : TableOK t) : TableOK (t.updateRow i newRow) := by
  intro c idx2 h2
  rw [Table.getIndex_updateRow] at h2
  cases hf : t.getIndex c with
  | none =>
    rw [hf] at h2
    cases h2
  | some idx =>
    rw [hf] at h2
    replace h2 : (if (rowAt t.rows i).getValue c ≠ newRow.getValue c then
        idx.update ((rowAt t.rows i).getValue c) (newRow.getValue c) i
      else idx) = idx2 := Option.some.inj h2
    rcases hok c idx hf with ⟨hfwd, hbwd, hnd⟩
    rw [show (t.updateRow i newRow).rows = t.rows.set i newRow from rfl]
    by_cases hchg : (rowAt t.rows i).getValue c ≠ newRow.getValue c
    · rw [if_pos hchg] at h2
      subst h2
      have hmem : ∀ v p, p ∈ (idx.update ((rowAt t.rows i).getValue c)
          (newRow.getValue c) i).lookup v ↔
          ((p ∈ idx.lookup v ∧ ¬(v = (rowAt t.rows i).getValue c ∧ p = i)) ∨
            (newRow.getValue c ≠ Value.null ∧ v = newRow.getValue c ∧ p = i)) := by
        intro v p
        unfold Index.update
        rw [Index.mem_lookup_add, Index.mem_lookup_remove]
      constructor
      · intro v p hp
        rcases (hmem v p).mp hp with ⟨hm, hni⟩ | ⟨hnn, hveq, hpeq⟩
        · rcases hfwd v p hm with ⟨hv, hlen, hrow⟩
          have hpi : p ≠ i := by
            intro hpi
            subst hpi
            exact hni ⟨(Row.getValue_of_get hrow).symm, rfl⟩
          refine ⟨hv, by simpa using hlen, ?_⟩
          rw [rowAt_set_ne _ _ _ _ (fun h => hpi h.symm)]
          exact hrow
        · subst hveq
          subst hpeq
          refine ⟨hnn, by simpa using hi, ?_⟩
          rw [rowAt_set_self _ _ _ hi]
          exact (Row.getValue_eq_iff _ _ _ hnn).mp rfl
      constructor
      · intro v p hlen hv hrow
        rw [List.length_set] at hlen
        apply (hmem v p).mpr
        by_cases hpi : p = i
        · subst hpi
          rw [rowAt_set_self _ _ _ hi] at hrow
          exact Or.inr ⟨by rw [Row.getValue_of_get hrow]; exact hv,
            (Row.getValue_of_get hrow).symm, rfl⟩
        · rw [rowAt_set_ne _ _ _ _ (fun h => hpi h.symm)] at hrow
          exact Or.inl ⟨hbwd v p hlen hv hrow, fun h => hpi h.2⟩
      · intro v
        unfold Index.update
        apply Index.nodup_lookup_add _ _ _ (Index.nodup_lookup_remove idx _ _ hnd)
        intro hmem2
        rw [Index.mem_lookup_remove] at hmem2
        rcases hmem2 with ⟨hm, hni⟩
        by_cases heq : newRow.getValue c = (rowAt t.rows i).getValue c
        · exact hni ⟨heq, rfl⟩
        · rcases hfwd _ i hm with ⟨hnn, -, hrow⟩
          exact heq (Row.getValue_of_get hrow).symm
    · rw [if_neg hchg] at h2
      subst h2
      push_neg at hchg
      constructor
      · intro v p hp
        rcases hfwd v p hp with ⟨hv, hlen, hrow⟩
        refine ⟨hv, by simpa using hlen, ?_⟩
        by_cases hpi : p = i
        · subst hpi
          rw [rowAt_set_self _ _ _ hi]
          apply (Row.getValue_eq_iff _ _ _ hv).mp
          rw [← hchg]
          exact Row.getValue_of_get hrow
        · rw [rowAt_set_ne _ _ _ _ (fun h => hpi h.symm)]
          exact hrow
      constructor
      · intro v p hlen hv hrow
        rw [List.length_set] at hlen
        by_cases hpi : p = i
        · subst hpi
          rw [rowAt_set_self _ _ _ hi] at hrow
          apply hbwd v p hlen hv
          apply (Row.getValue_eq_iff _ _ _ hv).mp
          rw [hchg]
          exact Row.getValue_of_get hrow
        · rw [rowAt_set_ne _ _ _ _ (fun h => hpi h.symm)] at hrow
          exact hbwd v p hlen hv hrow
      · exact hnd

lemma Table.getIndex_setRows (t : Table) (rows2 : List Row) (c : String) :
    ({ t with rows := rows2 }).getIndex c = t.getIndex c := rfl

lemma Table.deleteRow_def_last (t : Table) (i : Nat) (h : i = t.rows.length - 1) :
    t.deleteRow i =
      { (t.mapIndexes fun colName idx =>
          match (rowAt t.rows i).get colName with
          | some v => idx.remove v i
          | none => idx) with
        rows := t.rows.dropLast } := by
  unfold Table.deleteRow
  simp only
  rw [if_neg (by omega : ¬(i ≠ t.rows.length - 1))]
  rfl

lemma Table.deleteRow_def_swap (t : Table) (i : Nat) (h : i ≠ t.rows.length - 1) :
    t.deleteRow i =
      { ((t.mapIndexes fun colName idx =>
            match (rowAt t.rows i).get colName with
            | some v => idx.remove v i
            | none => idx).mapIndexes fun colName idx =>
            match (rowAt t.rows (t.rows.length - 1)).get colName with
            | some v => (idx.remove v (t.rows.length - 1)).add v i
            | none => idx) with
        rows := (t.rows.set i (rowAt t.rows (t.rows.length - 1))).dropLast } := by
  unfold Table.deleteRow
  simp only
  rw [if_pos h]
  rfl

/-- `deleteRow` preserves index consistency: in particular the moved last
row's index entries are rewritten to its new position. -/
lemma deleteRow_tableOK {t : Table} {i : Nat} (hi : i < t.rows.length)
    (hok : TableOK t) : TableOK (t.deleteRow i) := by
  by_cases hlast : i = t.rows.length - 1
  · rw [Table.deleteRow_def_last t i hlast]
    intro c idx2 h2
    rw [Table.getIndex_setRows, Table.getIndex_mapIndexes] at h2
    cases hf : t.getIndex c with
    | none =>
      rw [hf] at h2
      cases h2
    | some idx =>
      rw [hf] at h2
      replace h2 : (match (rowAt t.rows i).get c with
          | some v => idx.remove v i
          | none => idx) = idx2 := Option.some.inj h2
      rcases hok c idx hf with ⟨hfwd, hbwd, hnd⟩
      rw [show ({ (t.mapIndexes fun colName idx =>
          match (rowAt t.rows i).get colName with
          | some v => idx.remove v i
          | none => idx) with rows := t.rows.dropLast } : Table).rows
        = t.rows.dropLast from rfl]
    -- bound bookkeeping: the dropped position is exactly i
      cases hget : (rowAt t.rows i).get c with
      | none =>
        rw [hget] at h2
        cases h2
        refine ⟨?_, ?_, hnd⟩
        · intro v p hp
          rcases hfwd v p hp with ⟨hv, hlen, hval⟩
          have hpi : p ≠ i := by
            intro hpi
            rw [hpi, hget] at hval
            cases hval
          have hpL : p < t.rows.length - 1 := by omega
          refine ⟨hv, by simpa using hpL, ?_⟩
          rw [rowAt_dropLast _ _ hpL]
          exact hval
        · intro v p hlen hv hval
          rw [List.length_dropLast] at hlen
          rw [rowAt_dropLast _ _ hlen] at hval
          exact hbwd v p (by omega) hv hval
      | some v0 =>
        rw [hget] at h2
        cases h2
        refine ⟨?_, ?_, Index.nodup_lookup_remove idx _ _ hnd⟩
        · intro v p hp
          rw [Index.mem_lookup_remove] at hp
          rcases hp with ⟨hm, hni⟩
          rcases hfwd v p hm with ⟨hv, hlen, hval⟩
          have hpi : p ≠ i := by
            intro hpi
            apply hni
            rw [hpi, hget] at hval
            exact ⟨(Option.some.inj hval).symm, hpi⟩
          have hpL : p < t.rows.length - 1 := by omega
          refine ⟨hv, by simpa using hpL, ?_⟩
          rw [rowAt_dropLast _ _ hpL]
          exact hval
        · intro v p hlen hv hval
          rw [List.length_dropLast] at hlen
          rw [rowAt_dropLast _ _ hlen] at hval
          rw [Index.mem_lookup_remove]
          refine ⟨hbwd v p (by omega) hv hval, ?_⟩
          rintro ⟨-, hpi⟩
          omega
  · rw [Table.deleteRow_def_swap t i hlast]
    intro c idx2 h2
    rw [Table.getIndex_setRows, Table.getIndex_mapIndexes,
      Table.getIndex_mapIndexes] at h2
    have hiL : i < t.rows.length - 1 := by omega
    have hlen2 : 2 ≤ t.rows.length := by omega
    cases hf : t.getIndex c with
    | none =>
      rw [hf] at h2
      cases h2
    | some idx =>
      rw [hf] at h2
      replace h2 : (match (rowAt t.rows (t.rows.length - 1)).get c with
          | some v =>
            ((match (rowAt t.rows i).get c with
              | some v2 => idx.remove v2 i
              | none => idx).remove v (t.rows.length - 1)).add v i
          | none =>
            match (rowAt t.rows i).get c with
            | some v2 => idx.remove v2 i
            | none => idx) = idx2 := Option.some.inj h2
      rcases hok c idx hf with ⟨hfwd, hbwd, hnd⟩
      rw [show ({ ((t.mapIndexes fun colName idx =>
            match (rowAt t.rows i).get colName with
            | some v => idx.remove v i
            | none => idx).mapIndexes fun colName idx =>
            match (rowAt t.rows (t.rows.length - 1)).get colName with
            | some v => (idx.remove v (t.rows.length - 1)).add v i
            | none => idx) with
          rows := (t.rows.set i (rowAt t.rows (t.rows.length - 1))).dropLast } : Table).rows
        = (t.rows.set i (rowAt t.rows (t.rows.length - 1))).dropLast from rfl]
      have hlenrows : ((t.rows.set i (rowAt t.rows (t.rows.length - 1))).dropLast).length
          = t.rows.length - 1 := by
        rw [List.length_dropLast, List.length_set]
      have hrowAt2 : ∀ p, p < t.rows.length - 1 →
          rowAt ((t.rows.set i (rowAt t.rows (t.rows.length - 1))).dropLast) p
            = if p = i then rowAt t.rows (t.rows.length - 1) else rowAt t.rows p := by
        intro p hp
        rw [rowAt_dropLast _ _ (by rw [List.length_set]; omega)]
        by_cases hpi : p = i
        · rw [if_pos hpi, hpi, rowAt_set_self _ _ _ hi]
        · rw [if_neg hpi, rowAt_set_ne _ _ _ _ (fun h => hpi h.symm)]
      -- membership in the first-step index
      have hstep1 : ∀ v p, p ∈ ((match (rowAt t.rows i).get c with
            | some v2 => idx.remove v2 i
            | none => idx)).lookup v ↔
          (p ∈ idx.lookup v ∧ p ≠ i) := by
        intro v p
        cases hget : (rowAt t.rows i).get c with
        | none =>
          simp only []
          constructor
          · intro hm
            refine ⟨hm, ?_⟩
            intro hpi
            rcases hfwd v p hm with ⟨-, -, hval⟩
            rw [hpi, hget] at hval
            cases hval
          · exact fun h => h.1
        | some v0 =>
          simp only [Index.mem_lookup_remove]
          constructor
          · rintro ⟨hm, hni⟩
            refine ⟨hm, ?_⟩
            intro hpi
            apply hni
            rcases hfwd v p hm with ⟨-, -, hval⟩
            rw [hpi, hget] at hval
            exact ⟨(Option.some.inj hval).symm, hpi⟩
          · rintro ⟨hm, hpi⟩
            exact ⟨hm, fun h => hpi h.2⟩
      have hnd1 : ∀ v, ((match (rowAt t.rows i).get c with
            | some v2 => idx.remove v2 i
            | none => idx)).lookup v |>.Nodup := by
        intro v
        cases hget : (rowAt t.rows i).get c with
        | none => exact hnd v
        | some v0 => exact Index.nodup_lookup_remove idx _ _ hnd v
      cases hgm : (rowAt t.rows (t.rows.length - 1)).get c with
      | none =>
        rw [hgm] at h2
        subst h2
        refine ⟨?_, ?_, hnd1⟩
        · intro v p hp
          rw [hstep1] at hp
          rcases hp with ⟨hm, hpi⟩
          rcases hfwd v p hm with ⟨hv, hlen, hval⟩
          have hpL : p ≠ t.rows.length - 1 := by
            intro hpL
            rw [hpL, hgm] at hval
            cases hval
          refine ⟨hv, by omega, ?_⟩
          rw [hrowAt2 p (by omega), if_neg hpi]
          exact hval
        · intro v p hlen hv hval
          rw [hlenrows] at hlen
          rw [hrowAt2 p hlen] at hval
          by_cases hpi : p = i
          · rw [if_pos hpi, hgm] at hval
            cases hval
          · rw [if_neg hpi] at hval
            rw [hstep1]
            exact ⟨hbwd v p (by omega) hv hval, hpi⟩
      | some w =>
        rw [hgm] at h2
        subst h2
        have hiw : i ∉ ((match (rowAt t.rows i).get c with
            | some v2 => idx.remove v2 i
            | none => idx).remove w (t.rows.length - 1)).lookup w := by
          rw [Index.mem_lookup_remove, hstep1]
          rintro ⟨⟨-, hii⟩, -⟩
          exact hii rfl
        refine ⟨?_, ?_, fun v => Index.nodup_lookup_add _ _ _
          (Index.nodup_lookup_remove _ _ _ hnd1) hiw v⟩
        · intro v p hp
          rw [Index.mem_lookup_add, Index.mem_lookup_remove, hstep1] at hp
          rcases hp with ⟨⟨hm, hpi⟩, hnL⟩ | ⟨hwnn, hvw, hpi⟩
          · rcases hfwd v p hm with ⟨hv, hlen, hval⟩
            have hpL : p ≠ t.rows.length - 1 := by
              intro hpL
              apply hnL
              rw [hpL, hgm] at hval
              exact ⟨(Option.some.inj hval).symm, hpL⟩
            refine ⟨hv, by rw [hlenrows]; omega, ?_⟩
            rw [hrowAt2 p (by omega), if_neg hpi]
            exact hval
          · refine ⟨?_, by rw [hlenrows]; omega, ?_⟩
            · rw [hvw]
              exact hwnn
            · rw [hpi, hrowAt2 i (by omega), if_pos rfl, hvw]
              exact hgm
        · intro v p hlen hv hval
          rw [hlenrows] at hlen
          rw [hrowAt2 p hlen] at hval
          rw [Index.mem_lookup_add, Index.mem_lookup_remove, hstep1]
          by_cases hpi : p = i
          · rw [if_pos hpi] at hval
            rw [hgm] at hval
            have hvw : w = v := Option.some.inj hval
            subst hvw
            exact Or.inr ⟨hv, rfl, hpi⟩
          · rw [if_neg hpi] at hval
            refine Or.inl ⟨⟨hbwd v p (by omega) hv hval, hpi⟩, ?_⟩
            rintro ⟨-, hpL⟩
            omega

lemma Table.deleteRow_length (t : Table) (i : Nat) :
    (t.deleteRow i).rows.length = t.rows.length - 1 := by
  by_cases hlast : i = t.rows.length - 1
  · rw [Table.deleteRow_def_last t i hlast]
    simp
  · rw [Table.deleteRow_def_swap t i hlast]
    simp

lemma foldl_schema_tableOK (cols : List Column) :
    ∀ (t0 : Table), TableOK t0 →
      TableOK (cols.foldl (fun t col =>
        if col.primaryKey then
          let t1 := { t with primaryKey := col.name }
          match t1.createIndex col.name with
          | .ok t2 => t2
          | .error _ => t1
        else if col.unique then
          match t.createIndex col.name with
          | .ok t2 => t2
          | .error _ => t
        else t) t0) := by
  induction cols with
  | nil => exact fun t0 h0 => h0
  | cons col rest ih =>
    intro t0 h0
    rw [List.foldl_cons]
    apply ih
    by_cases hpk : col.primaryKey = true
    · rw [if_pos hpk]
      have h1 : TableOK ({ t0 with primaryKey := col.name } : Table) := h0
      dsimp only
      cases hci : ({ t0 with primaryKey := col.name } : Table).createIndex col.name with
      | ok t2 => exact createIndex_tableOK h1 hci
      | error e => exact h1
    · rw [if_neg hpk]
      by_cases hu : col.unique = true
      · rw [if_pos hu]
        cases hci : t0.createIndex col.name with
        | ok t2 => exact createIndex_tableOK h0 hci
        | error e => exact h0
      · rw [if_neg hu]
        exact h0

lemma newTable_tableOK (name : String) (schema : List Column) :
    TableOK (NewTable name schema) := by
  unfold NewTable
  apply foldl_schema_tableOK
  intro c idx h
  simp [Table.getIndex] at h

/-- The tables reachable from table creation by the engine's mutating
operations (`addRow`, `updateRow` and `deleteRow` at in-range positions,
and successful `CreateIndex`). -/
inductive Reachable : Table → Prop where
  | base (name : String) (schema : List Column) : Reachable (NewTable name schema)
  | add (t : Table) (row : Row) : Reachable t → Reachable (t.addRow row).1
  | update (t : Table) (i : Nat) (newRow : Row) : Reachable t →
      i < t.rows.length → Reachable (t.updateRow i newRow)
  | del (t : Table) (i : Nat) : Reachable t → i < t.rows.length →
      Reachable (t.deleteRow i)
  | createIdx (t : Table) (c : String) (t2 : Table) : Reachable t →
      t.createIndex c = .ok t2 → Reachable t2

/-- Every reachable table satisfies the index-consistency invariant. -/
lemma tableOK_of_reachable {t : Table} (h : Reachable t) : TableOK t := by
  induction h with
  | base name schema => exact newTable_tableOK name schema
  | add t row ht ih => exact addRow_tableOK row ih
  | update t i newRow ht hi ih => exact updateRow_tableOK newRow hi ih
  | del t i ht hi ih => exact deleteRow_tableOK hi ih
  | createIdx t c t2 ht hci ih => exact createIndex_tableOK ih hci

/-! ## Characterizing the Update loop -/

lemma rowAt_eq_getElem (l : List Row) (p : Nat) (h : p < l.length) :
    rowAt l p = l[p] := by
  unfold rowAt
  rw [List.getD_eq_getElem?_getD, List.getElem?_eq_getElem h]
  rfl

lemma slice_cons (l : List Row) (i j : Nat) (hij : i < j) (hj : j ≤ l.length) :
    (l.take j).drop i = rowAt l i :: (l.take j).drop (i + 1) := by
  have hi : i < (l.take j).length := by
    rw [List.length_take]
    omega
  rw [List.drop_eq_getElem_cons hi]
  congr 1
  rw [List.getElem_take]
  rw [rowAt_eq_getElem l i (by omega)]

lemma slice_set_above (l : List Row) (i j : Nat) (a : Row) :
    ((l.set i a).take j).drop (i + 1) = (l.take j).drop (i + 1) := by
  apply List.ext_getElem?
  intro k
  rw [List.getElem?_drop, List.getElem?_drop, List.getElem?_take,
    List.getElem?_take]
  by_cases hk : i + 1 + k < j
  · rw [if_pos hk, if_pos hk, List.getElem?_set_ne (by omega)]
  · rw [if_neg hk, if_neg hk]

lemma updateLoop_spec (updates : Row) (cond : Option Condition) :
    ∀ (fuel i acc : Nat) (t : Table), t.rows.length ≤ fuel + i →
      i ≤ t.rows.length →
      (Table.updateLoop updates cond fuel i acc t).1.rows.length = t.rows.length ∧
      ∃ j, i ≤ j ∧ j ≤ t.rows.length ∧
        ((Table.updateLoop updates cond fuel i acc t).2.2 = none → j = t.rows.length) ∧
        ((Table.updateLoop updates cond fuel i acc t).2.2.isSome = true →
          j < t.rows.length ∧ rowMatches cond (rowAt t.rows j) = true) ∧
        (Table.updateLoop updates cond fuel i acc t).2.1 =
          acc + ((t.rows.take j).drop i).countP (fun r => rowMatches cond r) ∧
        (∀ p, p < i ∨ j ≤ p →
          rowAt (Table.updateLoop updates cond fuel i acc t).1.rows p = rowAt t.rows p) ∧
        (∀ p, i ≤ p → p < j →
          rowAt (Table.updateLoop updates cond fuel i acc t).1.rows p =
            if rowMatches cond (rowAt t.rows p) then overlay (rowAt t.rows p) updates
            else rowAt t.rows p) := by
  intro fuel
  induction fuel with
  | zero =>
    intro i acc t hfuel hbound
    have hieq : i = t.rows.length := by omega
    rw [Table.updateLoop]
    refine ⟨rfl, t.rows.length, by omega, Nat.le_refl _, fun _ => rfl, ?_, ?_, ?_, ?_⟩
    · intro hsome
      cases hsome
    · rw [show (t.rows.take t.rows.length).drop i = [] from ?_]
      · simp
      · apply List.drop_eq_nil_of_le
        rw [List.length_take]
        omega
    · intro p hp
      rfl
    · intro p hip hpj
      omega
  | succ fuel ih =>
    intro i acc t hfuel hbound
    rw [Table.updateLoop]
    by_cases hlen : i < t.rows.length
    · rw [if_pos hlen]
      by_cases hm : rowMatches cond (rowAt t.rows i) = true
      · rw [if_neg (by simpa using hm)]
        dsimp only
        cases hval : ValidateUpdate t (rowAt t.rows i) (overlay (rowAt t.rows i) updates) with
        | some e =>
          refine ⟨rfl, i, Nat.le_refl _, by omega, ?_, ?_, ?_, ?_, ?_⟩
          · intro hnone
            cases hnone
          · intro _
            exact ⟨hlen, hm⟩
          · rw [show (t.rows.take i).drop i = [] from ?_]
            · simp
            · apply List.drop_eq_nil_of_le
              rw [List.length_take]
              omega
          · intro p hp
            rfl
          · intro p hip hpj
            omega
        | none =>
          dsimp only
          have hlen2 : (t.updateRow i (overlay (rowAt t.rows i) updates)).rows.length
              = t.rows.length := Table.updateRow_length t i _
          rcases ih (i + 1) (acc + 1) (t.updateRow i (overlay (rowAt t.rows i) updates))
              (by omega) (by omega) with ⟨hL, j, hij, hjle, hnone, hsome, hcount, hout, hin⟩
          rw [hlen2] at hjle hnone hsome
          have hrows2 : (t.updateRow i (overlay (rowAt t.rows i) updates)).rows
              = t.rows.set i (overlay (rowAt t.rows i) updates) := rfl
          refine ⟨by rw [hL, hlen2], j, by omega, hjle, hnone, ?_, ?_, ?_, ?_⟩
          · intro hs
            rcases hsome hs with ⟨hjlt, hjm⟩
            refine ⟨hjlt, ?_⟩
            rw [hrows2, rowAt_set_ne _ _ _ _ (by omega)] at hjm
            exact hjm
          · rw [hcount, hrows2]
            rw [slice_cons t.rows i j (by omega) hjle, List.countP_cons, hm]
            rw [slice_set_above]
            simp
            omega
          · intro p hp
            rcases hp with hp | hp
            · rw [hout p (Or.inl (by omega)), hrows2,
                rowAt_set_ne _ _ _ _ (by omega)]
            · rw [hout p (Or.inr hp), hrows2,
                rowAt_set_ne _ _ _ _ (by omega)]
          · intro p hip hpj
            by_cases hpi : p = i
            · subst hpi
              rw [hout p (Or.inl (by omega)), hrows2, rowAt_set_self _ _ _ hlen,
                if_pos hm]
            · rw [hin p (by omega) hpj, hrows2,
                rowAt_set_ne _ _ _ _ (by omega)]
      · rw [if_pos (by simpa using hm)]
        rcases ih (i + 1) acc t (by omega) (by omega) with
          ⟨hL, j, hij, hjle, hnone, hsome, hcount, hout, hin⟩
        refine ⟨hL, j, by omega, hjle, hnone, hsome, ?_, ?_, ?_⟩
        · rw [hcount, slice_cons t.rows i j (by omega) hjle, List.countP_cons]
          simp [hm]
        · intro p hp
          rcases hp with hp | hp
          · exact hout p (Or.inl (by omega))
          · exact hout p (Or.inr hp)
        · intro p hip hpj
          by_cases hpi : p = i
          · subst hpi
            rw [hout p (Or.inl (by omega)), if_neg (by simpa using hm)]
          · exact hin p (by omega) hpj
    · rw [if_neg hlen]
      have hieq : i = t.rows.length := by omega
      refine ⟨rfl, t.rows.length, by omega, Nat.le_refl _, fun _ => rfl, ?_, ?_, ?_, ?_⟩
      · intro hsome
        cases hsome
      · rw [show (t.rows.take t.rows.length).drop i = [] from ?_]
        · simp
        · apply List.drop_eq_nil_of_le
          rw [List.length_take]
          omega
      · intro p hp
        rfl
      · intro p hip hpj
        omega

/-! ## Characterizing the Delete loop -/

lemma perm_last_cons_dropLast :
    ∀ (l : List Row), l ≠ [] → l.Perm (rowAt l (l.length - 1) :: l.dropLast) := by
  intro l
  induction l with
  | nil => intro h; exact absurd rfl h
  | cons x rest ih =>
    intro _
    cases rest with
    | nil => simp [rowAt]
    | cons y rest2 =>
      have hne : (y :: rest2) ≠ [] := by simp
      have h1 := ih hne
      have h2 : rowAt (x :: y :: rest2) ((x :: y :: rest2).length - 1)
          = rowAt (y :: rest2) ((y :: rest2).length - 1) := by
        simp [rowAt]
      rw [h2]
      have h3 : (x :: y :: rest2).dropLast = x :: (y :: rest2).dropLast := by
        simp
      rw [h3]
      exact (List.Perm.cons x h1).trans (List.Perm.swap _ _ _)

lemma perm_delete_swap :
    ∀ (l : List Row) (i : Nat), i < l.length - 1 →
      l.Perm (rowAt l i :: ((l.set i (rowAt l (l.length - 1))).dropLast)) := by
  intro l
  induction l with
  | nil => intro i h; simp at h
  | cons x rest ih =>
    intro i hi
    cases i with
    | zero =>
      have hrest : rest ≠ [] := by
        intro h
        subst h
        simp at hi
      have h1 : rowAt (x :: rest) 0 = x := by simp [rowAt]
      have h2 : rowAt (x :: rest) ((x :: rest).length - 1)
          = rowAt rest (rest.length - 1) := by
        cases rest with
        | nil => exact absurd rfl hrest
        | cons y rest2 => simp [rowAt]
      rw [h1, h2]
      have h3 : (x :: rest).set 0 (rowAt rest (rest.length - 1))
          = rowAt rest (rest.length - 1) :: rest := rfl
      rw [h3]
      have h4 : (rowAt rest (rest.length - 1) :: rest).dropLast
          = rowAt rest (rest.length - 1) :: rest.dropLast := by
        cases rest with
        | nil => exact absurd rfl hrest
        | cons y rest2 => simp
      rw [h4]
      exact List.Perm.cons x (perm_last_cons_dropLast rest hrest)
    | succ i2 =>
      have hi2 : i2 < rest.length - 1 := by
        simp at hi
        omega
      have hrest : rest ≠ [] := by
        intro h
        subst h
        simp at hi2
      have h1 : rowAt (x :: rest) (i2 + 1) = rowAt rest i2 := by simp [rowAt]
      have h2 : rowAt (x :: rest) ((x :: rest).length - 1)
          = rowAt rest (rest.length - 1) := by
        cases rest with
        | nil => exact absurd rfl hrest
        | cons y rest2 => simp [rowAt]
      rw [h1, h2]
      have h3 : (x :: rest).set (i2 + 1) (rowAt rest (rest.length - 1))
          = x :: rest.set i2 (rowAt rest (rest.length - 1)) := rfl
      rw [h3]
      have hsetne : rest.set i2 (rowAt rest (rest.length - 1)) ≠ [] := by
        intro h
        have := congrArg List.length h
        simp at this
        subst this
        simp at hi2
      have h4 : (x :: rest.set i2 (rowAt rest (rest.length - 1))).dropLast
          = x :: (rest.set i2 (rowAt rest (rest.length - 1))).dropLast := by
        cases hr : rest.set i2 (rowAt rest (rest.length - 1)) with
        | nil => exact absurd hr hsetne
        | cons z rest3 => simp
      rw [h4]
      exact (List.Perm.cons x (ih i2 hi2)).trans (List.Perm.swap _ _ _)

/-- The rows of `deleteRow t i` are the rows of `t` with the row at `i`
removed, up to the swap-remove reordering. -/
lemma rows_perm_deleteRow (t : Table) (i : Nat) (hi : i < t.rows.length) :
    t.rows.Perm (rowAt t.rows i :: (t.deleteRow i).rows) := by
  by_cases hlast : i = t.rows.length - 1
  · rw [Table.deleteRow_def_last t i hlast]
    subst hlast
    exact perm_last_cons_dropLast t.rows (by intro h; rw [h] at hi; simp at hi)
  · rw [Table.deleteRow_def_swap t i hlast]
    exact perm_delete_swap t.rows i (by omega)

lemma rowAt_deleteRow (t : Table) (i : Nat) (hi : i < t.rows.length)
    (p : Nat) (hp : p < t.rows.length - 1) :
    rowAt (t.deleteRow i).rows p =
      if p = i then rowAt t.rows (t.rows.length - 1) else rowAt t.rows p := by
  by_cases hlast : i = t.rows.length - 1
  · rw [Table.deleteRow_def_last t i hlast]
    rw [show ({ (t.mapIndexes fun colName idx =>
        match (rowAt t.rows i).get colName with
        | some v => idx.remove v i
        | none => idx) with rows := t.rows.dropLast } : Table).rows
      = t.rows.dropLast from rfl]
    rw [if_neg (by omega), rowAt_dropLast _ _ hp]
  · rw [Table.deleteRow_def_swap t i hlast]
    rw [show ({ ((t.mapIndexes fun colName idx =>
          match (rowAt t.rows i).get colName with
          | some v => idx.remove v i
          | none => idx).mapIndexes fun colName idx =>
          match (rowAt t.rows (t.rows.length - 1)).get colName with
          | some v => (idx.remove v (t.rows.length - 1)).add v i
          | none => idx) with
        rows := (t.rows.set i (rowAt t.rows (t.rows.length - 1))).dropLast } : Table).rows
      = (t.rows.set i (rowAt t.rows (t.rows.length - 1))).dropLast from rfl]
    rw [rowAt_dropLast _ _ (by rw [List.length_set]; omega)]
    by_cases hpi : p = i
    · rw [if_pos hpi, hpi, rowAt_set_self _ _ _ hi]
    · rw [if_neg hpi, rowAt_set_ne _ _ _ _ (fun h => hpi h.symm)]

lemma deleteLoop_spec (cond : Option Condition) :
    ∀ (i : Nat) (t : Table), i ≤ t.rows.length →
      (∀ p, i ≤ p → p < t.rows.length → rowMatches cond (rowAt t.rows p) = false) →
      (t.deleteLoop cond i).1.rows.Perm
          (t.rows.filter (fun r => !rowMatches cond r))
        ∧ (t.deleteLoop cond i).2 = t.rows.countP (fun r => rowMatches cond r) := by
  intro i
  induction i with
  | zero =>
    intro t hle hnm
    rw [Table.deleteLoop]
    have hall : ∀ r ∈ t.rows, rowMatches cond r = false := by
      intro r hr
      rcases List.mem_iff_getElem.mp hr with ⟨p, hp, hrp⟩
      rw [← rowAt_eq_getElem t.rows p hp] at hrp
      rw [← hrp]
      exact hnm p (Nat.zero_le p) hp
    constructor
    · rw [List.filter_eq_self.mpr (fun r hr => by simp [hall r hr])]
    · rw [List.countP_eq_zero.mpr (fun r hr => by simp [hall r hr])]
  | succ i2 ih =>
    intro t hle hnm
    rw [Table.deleteLoop]
    by_cases hm : rowMatches cond (rowAt t.rows i2) = true
    · rw [if_neg (by simpa using hm)]
      dsimp only
      have hi2 : i2 < t.rows.length := by omega
      have hperm := rows_perm_deleteRow t i2 hi2
      have hlen2 : (t.deleteRow i2).rows.length = t.rows.length - 1 :=
        Table.deleteRow_length t i2
      have hrec : ∀ p, i2 ≤ p → p < (t.deleteRow i2).rows.length →
          rowMatches cond (rowAt (t.deleteRow i2).rows p) = false := by
        intro p hip hplen
        rw [hlen2] at hplen
        rw [rowAt_deleteRow t i2 hi2 p hplen]
        by_cases hpi : p = i2
        · rw [if_pos hpi]
          exact hnm (t.rows.length - 1) (by omega) (by omega)
        · rw [if_neg hpi]
          exact hnm p (by omega) (by omega)
      rcases ih (t.deleteRow i2) (by omega) hrec with ⟨hp1, hp2⟩
      have hfiltcons : (rowAt t.rows i2 :: (t.deleteRow i2).rows).filter
          (fun r => !rowMatches cond r)
          = (t.deleteRow i2).rows.filter (fun r => !rowMatches cond r) := by
        rw [List.filter_cons]
        simp [hm]
      constructor
      · have h5 : List.Perm ((t.deleteRow i2).rows.filter (fun r => !rowMatches cond r))
            (t.rows.filter (fun r => !rowMatches cond r)) := by
          rw [← hfiltcons]
          exact (hperm.filter (fun r => !rowMatches cond r)).symm
        exact hp1.trans h5
      · rw [hp2, hperm.countP_eq (fun r => rowMatches cond r), List.countP_cons]
        simp [hm]
    · rw [if_pos (by simpa using hm)]
      apply ih t (by omega)
      intro p hip hplen
      by_cases hpi : p = i2
      · rw [hpi]
        simpa using hm
      · exact hnm p (by omega) hplen

/-- `Delete` after table resolution removes exactly the matching rows. -/
lemma deleteRows_spec (t : Table) (cond : Option Condition) :
    (t.deleteRows cond).1.rows.Perm (t.rows.filter (fun r => !rowMatches cond r))
      ∧ (t.deleteRows cond).2 = t.rows.countP (fun r => rowMatches cond r) := by
  unfold Table.deleteRows
  exact deleteLoop_spec cond t.rows.length t (Nat.le_refl _)
    (fun p hip hplen => absurd hplen (by omega))

/-! ## Supporting lemmas for Select and InnerJoin -/

lemma beq_value_iff (a b : Value) : (a == b) = true ↔ a = b := beq_iff_eq

/-- With operator `=`, `evaluateCondition` holds exactly when the row
stores precisely the condition's value in the condition's column. -/
lemma evaluateCondition_eq_iff (r : Row) (cond : Condition) (hop : cond.operator = "=") :
    evaluateCondition r cond = true ↔ r.get cond.column = some cond.value := by
  unfold evaluateCondition
  cases hg : r.get cond.column with
  | none => simp
  | some v =>
    rw [hop]
    simp

/-- The positions whose row stores `v` in column `rc`, in storage order:
the linear-scan branch of the join's right-table matching. -/
def joinPairs (rows : List Row) (rc : String) (v : Value) : List Nat :=
  rows.enum.filterMap (fun q =>
    match q.2.get rc with
    | some rv => if rv == v then some q.1 else none
    | none => none)

lemma mem_joinPairs (rows : List Row) (rc : String) (v : Value) (p : Nat) :
    p ∈ joinPairs rows rc v ↔
      p < rows.length ∧ (rowAt rows p).get rc = some v := by
  unfold joinPairs
  rw [List.mem_filterMap]
  constructor
  · rintro ⟨q, hq, hfq⟩
    cases hg : q.2.get rc with
    | none =>
      rw [hg] at hfq
      cases hfq
    | some rv =>
      rw [hg] at hfq
      dsimp only at hfq
      by_cases hrv : (rv == v) = true
      · rw [if_pos hrv] at hfq
        cases hfq
        rw [beq_value_iff] at hrv
        subst hrv
        rw [List.mem_enum_iff_getElem?] at hq
        have hlt := (List.getElem?_eq_some_iff.mp hq).1
        refine ⟨hlt, ?_⟩
        rw [rowAt_eq_getElem rows q.1 hlt]
        rw [List.getElem?_eq_getElem hlt] at hq
        rw [Option.some.inj hq]
        exact hg
      · rw [if_neg hrv] at hfq
        cases hfq
  · rintro ⟨hlt, hval⟩
    refine ⟨(p, rowAt rows p), ?_, ?_⟩
    · rw [List.mem_enum_iff_getElem?]
      rw [List.getElem?_eq_getElem hlt, rowAt_eq_getElem rows p hlt]
    · rw [hval]
      simp

lemma sublist_filterMap_fst {α : Type} (l : List (Nat × α)) (f : Nat × α → Option Nat)
    (hf : ∀ q r, f q = some r → r = q.1) :
    (l.filterMap f).Sublist (l.map Prod.fst) := by
  induction l with
  | nil => simp
  | cons q rest ih =>
    rw [List.filterMap_cons, List.map_cons]
    cases hfq : f q with
    | none => exact ih.cons q.1
    | some r =>
      rw [hf q r hfq]
      exact ih.cons₂ q.1

lemma nodup_joinPairs (rows : List Row) (rc : String) (v : Value) :
    (joinPairs rows rc v).Nodup := by
  have hsub : (joinPairs rows rc v).Sublist (rows.enum.map Prod.fst) := by
    apply sublist_filterMap_fst
    intro q r hfq
    cases hg : q.2.get rc with
    | none => rw [hg] at hfq; cases hfq
    | some rv =>
      rw [hg] at hfq
      dsimp only at hfq
      by_cases hrv : (rv == v) = true
      · rw [if_pos hrv] at hfq
        exact (Option.some.inj hfq).symm
      · rw [if_neg hrv] at hfq
        cases hfq
  apply hsub.nodup
  rw [List.enum_map_fst]
  exact List.nodup_range _

/-- Under the index-consistency invariant, an index bucket is, up to
order, exactly the scan of the rows for that value. -/
lemma bucket_perm_joinPairs {rows : List Row} {rc : String} {idx : Index}
    (hok : IndexOK rows rc idx) (v : Value) (hv : v ≠ Value.null) :
    (idx.lookup v).Perm (joinPairs rows rc v) := by
  rcases hok with ⟨hfwd, hbwd, hnd⟩
  apply (List.perm_ext_iff_of_nodup (hnd v) (nodup_joinPairs rows rc v)).mpr
  intro p
  rw [mem_joinPairs]
  constructor
  · intro hm
    rcases hfwd v p hm with ⟨-, hlt, hval⟩
    exact ⟨hlt, hval⟩
  · rintro ⟨hlt, hval⟩
    exact hbwd v p hlt hv hval

lemma filterMap_get?_eq_map (rows : List Row) (g : Row → Row) :
    ∀ (ps : List Nat), (∀ p ∈ ps, p < rows.length) →
      ps.filterMap (fun p =>
        match rows.get? p with
        | none => none
        | some rr => some (g rr))
      = ps.map (fun p => g (rowAt rows p)) := by
  intro ps
  induction ps with
  | nil => intro h; rfl
  | cons p rest ih =>
    intro h
    rw [List.filterMap_cons, List.map_cons]
    have hp : p < rows.length := h p (List.mem_cons_self _ _)
    rw [show rows.get? p = some (rowAt rows p) from ?_]
    · rw [ih (fun q hq => h q (List.mem_cons_of_mem _ hq))]
    · rw [List.get?_eq_getElem?, List.getElem?_eq_getElem hp,
        rowAt_eq_getElem rows p hp]

lemma flatMap_perm_of_forall {α β : Type} (f g : α → List β) (l : List α)
    (h : ∀ a ∈ l, (f a).Perm (g a)) : (l.flatMap f).Perm (l.flatMap g) := by
  induction l with
  | nil => simp
  | cons a rest ih =>
    rw [List.flatMap_cons, List.flatMap_cons]
    exact (h a (List.mem_cons_self _ _)).append
      (ih (fun b hb => h b (List.mem_cons_of_mem _ hb)))

lemma Row.keys_set (r : Row) (c : String) (v : Value) (k : String)
    (hk : k ∈ (r.set c v).entries.map Prod.fst) :
    k ∈ r.entries.map Prod.fst ∨ k = c := by
  unfold Row.set at hk
  by_cases h : r.entries.any (fun kv => kv.1 == c)
  · rw [if_pos h] at hk
    left
    have : ((r.entries.map (fun kv => if kv.1 == c then (kv.1, v) else kv)).map Prod.fst)
        = r.entries.map Prod.fst := by
      rw [List.map_map]
      apply List.map_congr_left
      intro kv _
      show (if (kv.1 == c) = true then (kv.1, v) else kv).1 = kv.1
      split <;> rfl
    rw [show (Row.mk (r.entries.map (fun kv => if kv.1 == c then (kv.1, v) else kv))).entries
        = r.entries.map (fun kv => if kv.1 == c then (kv.1, v) else kv) from rfl] at hk
    rw [this] at hk
    exact hk
  · rw [if_neg h] at hk
    rw [show (Row.mk (r.entries ++ [(c, v)])).entries = r.entries ++ [(c, v)] from rfl] at hk
    rw [List.map_append] at hk
    rcases List.mem_append.mp hk with h1 | h2
    · exact Or.inl h1
    · right
      simpa using h2

/-- Every key of a merged row is qualified with one of the two table
names. -/
lemma mergeRows_keys (left right : Row) (ln rn : String) (k : String)
    (hk : k ∈ (mergeRows left right ln rn).entries.map Prod.fst) :
    (∃ c, k = ln ++ "." ++ c) ∨ (∃ c, k = rn ++ "." ++ c) := by
  have hfold : ∀ (l : List (String × Value)) (pre : String) (init : Row) (k : String),
      k ∈ (l.foldl (fun r kv => r.set (pre ++ "." ++ kv.1) kv.2) init).entries.map Prod.fst →
      k ∈ init.entries.map Prod.fst ∨ ∃ c, k = pre ++ "." ++ c := by
    intro l
    induction l with
    | nil => exact fun pre init k hk => Or.inl hk
    | cons kv rest ih =>
      intro pre init k hk
      rw [List.foldl_cons] at hk
      rcases ih pre _ k hk with hmem | hq
      · rcases Row.keys_set init _ _ k hmem with h1 | h2
        · exact Or.inl h1
        · exact Or.inr ⟨kv.1, h2⟩
      · exact Or.inr hq
  unfold mergeRows at hk
  rcases hfold right.entries rn _ k hk with hmem | hq
  · rcases hfold left.entries ln ⟨[]⟩ k hmem with h0 | hq2
    · simp at h0
    · exact Or.inl hq2
  · exact Or.inr hq

/-- The table registry. -/
structure Database where
  tables : List (String × Table)

/-- `NewDatabase`. -/
def NewDatabase : Database := ⟨[]⟩

/-- `Database.GetTable`. -/
def Database.getTable (db : Database) (name : String) : Except DBError Table :=
  match db.tables.find? (fun kv => kv.1 == name) with
  | some kv => .ok kv.2
  | none => .error (.tableNotFound name)

/-- `Database.CreateTable`: fails if the name is taken, otherwise
constructs the table and registers it. -/
def Database.createTable (db : Database) (name : String) (schema : List Column) :
    Except DBError Database :=
  if db.tables.any (fun kv => kv.1 == name) then
    .error (.tableAlreadyExists name)
  else
    .ok ⟨db.tables ++ [(name, NewTable name schema)]⟩

/-! ## The last primary-key column wins in NewTable -/

lemma createIndex_primaryKey {t : Table} {c : String} {t2 : Table}
    (h : t.createIndex c = .ok t2) : t2.primaryKey = t.primaryKey := by
  unfold Table.createIndex at h
  by_cases h1 : ¬t.hasColumn c
  · rw [if_pos h1] at h
    cases h
  · rw [if_neg h1] at h
    by_cases h2 : (t.getIndex c).isSome
    · rw [if_pos h2] at h
      cases h
      rfl
    · rw [if_neg h2] at h
      cases h
      rfl

lemma foldl_newTable_primaryKey (cols : List Column) :
    ∀ (t0 : Table),
      (cols.foldl (fun t col =>
        if col.primaryKey then
          let t1 := { t with primaryKey := col.name }
          match t1.createIndex col.name with
          | .ok t2 => t2
          | .error _ => t1
        else if col.unique then
          match t.createIndex col.name with
          | .ok t2 => t2
          | .error _ => t
        else t) t0).primaryKey
      = (cols.filter (fun col => col.primaryKey)).foldl
          (fun _ col => col.name) t0.primaryKey := by
  induction cols with
  | nil => exact fun t0 => rfl
  | cons col rest ih =>
    intro t0
    rw [List.foldl_cons, ih]
    have hstep : ((fun t (col : Column) =>
        if col.primaryKey then
          let t1 := { t with primaryKey := col.name }
          match t1.createIndex col.name with
          | .ok t2 => t2
          | .error _ => t1
        else if col.unique then
          match t.createIndex col.name with
          | .ok t2 => t2
          | .error _ => t
        else t) t0 col).primaryKey
        = if col.primaryKey then col.name else t0.primaryKey := by
      dsimp only
      by_cases hpk : col.primaryKey = true
      · rw [if_pos hpk, if_pos hpk]
        cases hci : ({ t0 with primaryKey := col.name } : Table).createIndex col.name with
        | ok t2 => exact createIndex_primaryKey hci
        | error e => rfl
      · rw [if_neg hpk, if_neg hpk]
        by_cases hu : col.unique = true
        · rw [if_pos hu]
          cases hci : t0.createIndex col.name with
          | ok t2 => exact createIndex_primaryKey hci
          | error e => rfl
        · rw [if_neg hu]
    rw [hstep, List.filter_cons]
    by_cases hpk : col.primaryKey = true
    · rw [if_pos hpk, if_pos hpk, List.foldl_cons]
    · rw [if_neg hpk, if_neg hpk]

lemma foldl_name_getLast (F : List Column) :
    ∀ (d : String), F.foldl (fun _ col => col.name) d =
      match F.getLast? with
      | some col => col.name
      | none => d := by
  induction F with
  | nil => exact fun d => rfl
  | cons col rest ih =>
    intro d
    rw [List.foldl_cons, ih col.name]
    cases rest with
    | nil => rfl
    | cons y rest2 =>
      rw [List.getLast?_cons_cons]
      cases h : (y :: rest2).getLast? with
      | none =>
        have := List.getLast?_isSome (l := y :: rest2)
        rw [h] at this
        simp at this
      | some c => rfl

/-- The `primaryKey` field of a new table is the name of the last
primary-key column of the schema (empty when there is none). -/
lemma newTable_primaryKey (name : String) (schema : List Column) :
    (NewTable name schema).primaryKey =
      match (schema.filter (fun col => col.primaryKey)).getLast? with
      | some col => col.name
      | none => "" := by
  unfold NewTable
  rw [foldl_newTable_primaryKey, foldl_name_getLast]

/-! ## Lock-usage traces

The engine guards the registry with one `sync.RWMutex`. Each Database
method is modelled as the sequence of lock and data events its Go body
performs, in program order: `GetTable` acquires and releases the reader
lock around the registry lookup; `Insert`, `Update` and `Delete` then
validate (read) and mutate the resolved table after `GetTable` has
already returned — that is, after the reader lock was released — and the
HTTP layer calls `Table.CreateIndex` directly after `GetTable`.
`CreateTable` and `DropTable` perform their registry mutation between
`Lock` and `Unlock`. -/

inductive LockEvent where
  | acquireRead
  | releaseRead
  | acquireWrite
  | releaseWrite
  | readTable
  | mutateTable
deriving DecidableEq, Repr

/-- `Database.GetTable`: registry lookup under the reader lock. -/
def getTableEvents : List LockEvent := [.acquireRead, .readTable, .releaseRead]

/-- `Database.Insert`: resolve the table, validate (reads rows and
indexes), then `addRow` (mutates rows and indexes). -/
def insertEvents : List LockEvent := getTableEvents ++ [.readTable, .mutateTable]

/-- `Database.Update`: resolve, then per-row evaluate/validate (reads)
and `updateRow` (mutates). -/
def updateEvents : List LockEvent := getTableEvents ++ [.readTable, .mutateTable]

/-- `Database.Delete`: resolve, then per-row evaluate (reads) and
`deleteRow` (mutates). -/
def deleteEvents : List LockEvent := getTableEvents ++ [.readTable, .mutateTable]

/-- Index creation as performed by the web layer: `GetTable`, then
`Table.CreateIndex` (mutates the table's index map). -/
def createIndexEvents : List LockEvent := getTableEvents ++ [.mutateTable]

/-- `Database.CreateTable`: the registry check and registration between
`Lock` and `Unlock`. -/
def createTableEvents : List LockEvent :=
  [.acquireWrite, .readTable, .mutateTable, .releaseWrite]

/-- Whether the writer lock is held just before the event at position
`i` of a trace. -/
def writerHeldAt (tr : List LockEvent) (i : Nat) : Bool :=
  (tr.take i).countP (fun e => e == .acquireWrite)
    > (tr.take i).countP (fun e => e == .releaseWrite)

/-- Whether every table mutation in a trace happens while the writer
lock is held. -/
def mutationsUnderWriterLock (tr : List LockEvent) : Bool :=
  (List.range tr.length).all (fun i =>
    !(tr.getD i .readTable == .mutateTable) || writerHeldAt tr i)

/-! ## Concrete fixtures used by witnesses and counterexamples -/

/-- `users(id INT PRIMARY KEY, email STRING UNIQUE)`. -/
def usersSchema : List Column :=
  [{ name := "id", type := .tInt, primaryKey := true },
   { name := "email", type := .tString, unique := true }]

def usersRow1 : Row := ⟨[("id", Value.int 1), ("email", Value.str "a")]⟩

def usersRow2 : Row := ⟨[("id", Value.int 2), ("email", Value.str "b")]⟩

def usersRow3 : Row := ⟨[("id", Value.int 3), ("email", Value.str "c")]⟩

/-- The users table holding one row. -/
def usersTable : Table := ((NewTable "users" usersSchema).addRow usersRow1).1

/-- The users table holding three rows. -/
def usersTable3 : Table :=
  (((usersTable.addRow usersRow2).1).addRow usersRow3).1

lemma usersTable_reachable : Reachable usersTable :=
  Reachable.add _ _ (Reachable.base "users" usersSchema)

lemma usersTable3_reachable : Reachable usersTable3 :=
  Reachable.add _ _ (Reachable.add _ _ usersTable_reachable)

/-- `t5(a INT PRIMARY KEY, c INT)` with one row whose `c` is nil. -/
def c5Schema : List Column :=
  [{ name := "a", type := .tInt, primaryKey := true },
   { name := "c", type := .tInt }]

def c5Base : Table :=
  ((NewTable "t5" c5Schema).addRow ⟨[("a", Value.int 1), ("c", Value.null)]⟩).1

/-- The same table after `CreateIndex("c")`. -/
def c5Table : Table :=
  match c5Base.createIndex "c" with
  | .ok t => t
  | .error _ => c5Base

lemma c5Table_reachable : Reachable c5Table :=
  Reachable.createIdx c5Base "c" c5Table
    (Reachable.add _ _ (Reachable.base "t5" c5Schema)) rfl

/-- `posts(pid INT PRIMARY KEY, uid INT)` with one row referencing user 1. -/
def postsSchema : List Column :=
  [{ name := "pid", type := .tInt, primaryKey := true },
   { name := "uid", type := .tInt }]

def postsTable : Table :=
  ((NewTable "posts" postsSchema).addRow ⟨[("pid", Value.int 10), ("uid", Value.int 1)]⟩).1

/-- Two primary-key columns, for the multiple-primary-keys scenario. -/
def c8Schema : List Column :=
  [{ name := "a", type := .tInt, primaryKey := true },
   { name := "b", type := .tInt, primaryKey := true }]

lemma countP_not_rowMatches (cond : Option Condition) (l : List Row) :
    l.countP (fun r => !rowMatches cond r) =
      l.length - l.countP (fun r => rowMatches cond r) := by
  induction l with
  | nil => rfl
  | cons a l ih =>
    have hle := List.countP_le_length (p := fun r => rowMatches cond r) (l := l)
    rw [List.countP_cons, List.countP_cons, List.length_cons, ih]
    by_cases hm : rowMatches cond a = true
    · simp [hm]
    · rw [Bool.not_eq_true] at hm
      simp [hm]
      omega

/-! ## The claims -/

/-- C1: index consistency is an invariant of every table mutation — for
every table reachable by any sequence of `addRow`, `updateRow`,
`deleteRow` and `CreateIndex` operations, every bucket entry of every
index is an in-range position (so no stale position survives a delete),
and for every position `p` below the row count, `p` is in
`indexes[c].lookup v` exactly when the row at `p` holds the non-null
value `v` in column `c`; in particular, after a `deleteRow`, the old last
position is in no bucket. -/
theorem c1_index_consistency {t : Table} (h : Reachable t) :
    (∀ c idx v p, t.getIndex c = some idx → p ∈ idx.lookup v →
      p < t.rows.length)
    ∧ (∀ c idx v p, t.getIndex c = some idx → v ≠ Value.null →
        p < t.rows.length →
        (p ∈ idx.lookup v ↔ (rowAt t.rows p).get c = some v))
    ∧ (∀ i c idx v, i < t.rows.length → (t.deleteRow i).getIndex c = some idx →
        t.rows.length - 1 ∉ idx.lookup v) := by
  have hok := tableOK_of_reachable h
  refine ⟨?_, ?_, ?_⟩
  · intro c idx v p hidx hp
    exact ((hok c idx hidx).1 v p hp).2.1
  · intro c idx v p hidx hv hp
    constructor
    · intro hm
      exact ((hok c idx hidx).1 v p hm).2.2
    · intro hval
      exact (hok c idx hidx).2.1 v p hp hv hval
  · intro i c idx v hi hidx hmem
    have hok2 := tableOK_of_reachable (Reachable.del t i h hi)
    have hlt := ((hok2 c idx hidx).1 v _ hmem).2.1
    rw [Table.deleteRow_length] at hlt
    omega

/-- Witness for C1 at a concrete reachable table. -/
theorem c1_index_consistency_witness :
    0 < usersTable.rows.length ∧
    ((∀ c idx v p, usersTable.getIndex c = some idx → p ∈ idx.lookup v →
        p < usersTable.rows.length)
     ∧ (∀ c idx v p, usersTable.getIndex c = some idx → v ≠ Value.null →
          p < usersTable.rows.length →
          (p ∈ idx.lookup v ↔ (rowAt usersTable.rows p).get c = some v))
     ∧ (∀ i c idx v, i < usersTable.rows.length →
          (usersTable.deleteRow i).getIndex c = some idx →
          usersTable.rows.length - 1 ∉ idx.lookup v)) :=
  ⟨by decide, c1_index_consistency usersTable_reachable⟩

/-- C2, counterexample: the claim says an ordering comparison between
values that are not both ints or both strings evaluates false, but for
`>=` and `<=` the code reports `compareValues = 0` and the condition
evaluates TRUE — here on two booleans and on an int against a string. -/
theorem c2_ordering_counterexample :
    evaluateCondition ⟨[("x", Value.bool true)]⟩ ⟨"x", ">=", Value.bool false⟩ = true ∧
    evaluateCondition ⟨[("x", Value.int 1)]⟩ ⟨"x", "<=", Value.str "y"⟩ = true := by
  decide

/-- C2, amended: for an unorderable pair (not both ints, not both
strings) the strict comparisons `>` and `<` evaluate false, but `>=` and
`<=` evaluate TRUE, because `compareValues` reports 0. -/
theorem c2_ordering_amended (r : Row) (c : String) (v cv : Value)
    (hget : r.get c = some v)
    (hni : ∀ m n : Int, ¬(v = Value.int m ∧ cv = Value.int n))
    (hns : ∀ a b : String, ¬(v = Value.str a ∧ cv = Value.str b)) :
    evaluateCondition r ⟨c, ">", cv⟩ = false ∧
    evaluateCondition r ⟨c, "<", cv⟩ = false ∧
    evaluateCondition r ⟨c, ">=", cv⟩ = true ∧
    evaluateCondition r ⟨c, "<=", cv⟩ = true := by
  have hcmp : compareValues v cv = 0 := by
    cases v <;> cases cv <;>
      first
        | rfl
        | exact absurd ⟨rfl, rfl⟩ (hni _ _)
        | exact absurd ⟨rfl, rfl⟩ (hns _ _)
  refine ⟨?_, ?_, ?_, ?_⟩ <;>
    (unfold evaluateCondition
     rw [hget]
     dsimp only
     simp [hcmp])

/-- Witness for C2's amended statement on two booleans. -/
theorem c2_ordering_amended_witness :
    ((⟨[("x", Value.bool true)]⟩ : Row).get "x" = some (Value.bool true)) ∧
    (evaluateCondition ⟨[("x", Value.bool true)]⟩ ⟨"x", ">", Value.bool false⟩ = false ∧
     evaluateCondition ⟨[("x", Value.bool true)]⟩ ⟨"x", "<", Value.bool false⟩ = false ∧
     evaluateCondition ⟨[("x", Value.bool true)]⟩ ⟨"x", ">=", Value.bool false⟩ = true ∧
     evaluateCondition ⟨[("x", Value.bool true)]⟩ ⟨"x", "<=", Value.bool false⟩ = true) :=
  ⟨by decide,
   c2_ordering_amended ⟨[("x", Value.bool true)]⟩ "x" (Value.bool true) (Value.bool false)
     (by decide)
     (fun m n h => Value.noConfusion h.1)
     (fun a b h => Value.noConfusion h.1)⟩

/-- C3, counterexample: a row whose primary-key value is present but nil
passes the primary-key phase (a nil value is never found by the index),
so a duplicated unique value is reported as UniqueViolation, not as
MissingRequiredColumn for the primary key. -/
theorem c3_nullpk_counterexample :
    ValidateInsert usersTable ⟨[("id", Value.null), ("email", Value.str "a")]⟩
        = some (.uniqueViolation "users" "email" (Value.str "a")) ∧
    ValidateInsert usersTable ⟨[("id", Value.null), ("email", Value.str "a")]⟩
        ≠ some (.missingRequiredColumn "users" "id") := by
  decide

/-- C3, amended: only when the primary-key column is entirely absent from
the inserted row does `ValidateInsert` fail with MissingRequiredColumn
for the primary key before any unique check; a present-but-nil key value
instead reaches the unique phase first. -/
theorem c3_missing_pk_amended (t : Table) (row : Row)
    (hpk : t.primaryKey ≠ "") (habs : row.get t.primaryKey = none) :
    ValidateInsert t row = some (.missingRequiredColumn t.name t.primaryKey) := by
  unfold ValidateInsert checkInsertPK
  rw [if_pos hpk, habs]

/-- Witness for C3's amended statement: the primary key is absent. -/
theorem c3_missing_pk_amended_witness :
    (usersTable.primaryKey ≠ "" ∧
      (⟨[("email", Value.str "b")]⟩ : Row).get usersTable.primaryKey = none) ∧
    ValidateInsert usersTable ⟨[("email", Value.str "b")]⟩
      = some (.missingRequiredColumn usersTable.name usersTable.primaryKey) :=
  ⟨⟨by decide, by decide⟩,
   c3_missing_pk_amended usersTable ⟨[("email", Value.str "b")]⟩ (by decide) (by decide)⟩

/-- C6: `Delete` removes exactly the rows matching the condition (all
rows when it is nil): it returns their count, the table afterwards holds
`originalCount - N` rows, none of which matches, and the remaining rows
are exactly the non-matching original rows (up to the swap-remove
reordering) — no non-matching row is deleted and no matching row is left
behind. -/
theorem c6_delete_exact (t : Table) (cond : Option Condition) :
    (t.deleteRows cond).2 = t.rows.countP (fun r => rowMatches cond r) ∧
    (t.deleteRows cond).1.rows.length = t.rows.length - (t.deleteRows cond).2 ∧
    (∀ r ∈ (t.deleteRows cond).1.rows, rowMatches cond r = false) ∧
    (t.deleteRows cond).1.rows.Perm
      (t.rows.filter (fun r => !rowMatches cond r)) := by
  rcases deleteRows_spec t cond with ⟨hperm, hcount⟩
  refine ⟨hcount, ?_, ?_, hperm⟩
  · rw [hperm.length_eq, hcount, ← List.countP_eq_length_filter, countP_not_rowMatches]
  · intro r hr
    have hmem := hperm.mem_iff.mp hr
    have := (List.mem_filter.mp hmem).2
    rwa [Bool.not_eq_true'] at this

/-- C8: a schema with two or more primary-key columns is accepted by
`CreateTable` (no MultiplePrimaryKeys or other error when the name is
free), and the created table's single `primaryKey` field is the name of
the last primary-key column in schema order. -/
theorem c8_last_primary_key_wins (db : Database) (name : String) (schema : List Column)
    (hfree : (db.tables.any (fun kv => kv.1 == name)) = false)
    (hpk2 : 2 ≤ (schema.filter (fun col => col.primaryKey)).length) :
    ∃ db2, db.createTable name schema = .ok db2 ∧
      db2.getTable name = .ok (NewTable name schema) ∧
      ∃ col, (schema.filter (fun col => col.primaryKey)).getLast? = some col ∧
        (NewTable name schema).primaryKey = col.name := by
  refine ⟨⟨db.tables ++ [(name, NewTable name schema)]⟩, ?_, ?_, ?_⟩
  · unfold Database.createTable
    rw [if_neg (by simp [hfree])]
  · unfold Database.getTable
    rw [show (⟨db.tables ++ [(name, NewTable name schema)]⟩ : Database).tables
        = db.tables ++ [(name, NewTable name schema)] from rfl]
    rw [find?_append_keyed]
    rw [show db.tables.find? (fun kv => kv.1 == name) = none from ?_]
    · simp
    · rw [List.find?_eq_none]
      intro kv hkv
      have := List.any_eq_false.mp hfree kv hkv
      simpa using this
  · have hlast : ∃ col, (schema.filter (fun col => col.primaryKey)).getLast? = some col := by
      cases hcol : (schema.filter (fun col => col.primaryKey)).getLast? with
      | some col => exact ⟨col, rfl⟩
      | none =>
        have hnil := List.getLast?_eq_none_iff.mp hcol
        rw [hnil] at hpk2
        simp at hpk2
    rcases hlast with ⟨col, hcol⟩
    refine ⟨col, hcol, ?_⟩
    rw [newTable_primaryKey, hcol]

/-- Witness for C8 with a two-primary-key schema on an empty registry. -/
theorem c8_last_primary_key_wins_witness :
    ((NewDatabase.tables.any (fun kv => kv.1 == "t8")) = false ∧
      2 ≤ (c8Schema.filter (fun col => col.primaryKey)).length) ∧
    (∃ db2, NewDatabase.createTable "t8" c8Schema = .ok db2 ∧
      db2.getTable "t8" = .ok (NewTable "t8" c8Schema) ∧
      ∃ col, (c8Schema.filter (fun col => col.primaryKey)).getLast? = some col ∧
        (NewTable "t8" c8Schema).primaryKey = col.name) :=
  ⟨⟨by decide, by decide⟩,
   c8_last_primary_key_wins NewDatabase "t8" c8Schema (by decide) (by decide)⟩

/-- C9: the claim says every row-level mutation (Insert, Update, Delete,
index creation) runs under the writer lock. In the code, each of these
resolves the table through `GetTable` — which releases the reader lock
before returning — and then mutates the table with NO lock held, so the
claim fails on the code; only the registry operations such as
`CreateTable` mutate under the writer lock. -/
theorem c9_mutation_without_writer_lock :
    mutationsUnderWriterLock insertEvents = false ∧
    mutationsUnderWriterLock updateEvents = false ∧
    mutationsUnderWriterLock deleteEvents = false ∧
    mutationsUnderWriterLock createIndexEvents = false ∧
    mutationsUnderWriterLock createTableEvents = true := by
  decide

/-- C10: a row that lacks the condition's column never matches, for every
operator including `!=`: `evaluateCondition` is false, `Delete` never
removes such a row (its multiplicity is preserved), and `Update` leaves
it unchanged at its position. -/
theorem c10_missing_column_never_matches (cond : Condition) (r : Row)
    (habs : r.get cond.column = none) :
    evaluateCondition r cond = false ∧
    (∀ t : Table, (t.deleteRows (some cond)).1.rows.count r = t.rows.count r) ∧
    (∀ t : Table, ∀ updates : Row, ∀ p, p < t.rows.length → rowAt t.rows p = r →
      rowAt (t.updateRows updates (some cond)).1.rows p = r) := by
  have heval : evaluateCondition r cond = false := by
    unfold evaluateCondition
    rw [habs]
  have hmatch : rowMatches (some cond) r = false := heval
  refine ⟨heval, ?_, ?_⟩
  · intro t
    rcases deleteRows_spec t (some cond) with ⟨hperm, -⟩
    rw [hperm.count_eq]
    apply List.count_filter
    rw [hmatch]
    rfl
  · intro t updates p hp hr
    rcases updateLoop_spec updates (some cond) t.rows.length 0 0 t (by omega) (by omega)
      with ⟨hL, j, h0j, hjle, hnone, hsome, hcount, hout, hin⟩
    unfold Table.updateRows
    by_cases hpj : p < j
    · rw [hin p (by omega) hpj, hr, hmatch]
      rw [if_neg (by simp)]
    · rw [hout p (Or.inr (by omega))]
      exact hr

/-- Witness for C10: a row without the condition's column. -/
theorem c10_missing_column_never_matches_witness :
    ((⟨[("id", Value.int 1)]⟩ : Row).get "zzz" = none) ∧
    (evaluateCondition ⟨[("id", Value.int 1)]⟩ ⟨"zzz", "!=", Value.int 1⟩ = false ∧
     (∀ t : Table, (t.deleteRows (some ⟨"zzz", "!=", Value.int 1⟩)).1.rows.count
        ⟨[("id", Value.int 1)]⟩ = t.rows.count ⟨[("id", Value.int 1)]⟩) ∧
     (∀ t : Table, ∀ updates : Row, ∀ p, p < t.rows.length →
        rowAt t.rows p = ⟨[("id", Value.int 1)]⟩ →
        rowAt (t.updateRows updates (some ⟨"zzz", "!=", Value.int 1⟩)).1.rows p
          = ⟨[("id", Value.int 1)]⟩)) :=
  ⟨by decide,
   c10_missing_column_never_matches ⟨"zzz", "!=", Value.int 1⟩ ⟨[("id", Value.int 1)]⟩
     (by decide)⟩

/-- C4: when an `Update` call fails constraint validation at the k-th
condition-matching row (scanning forward by position), it returns the
error together with the count of rows already updated — the number of
matching rows strictly before the failing position; those earlier
matching rows keep their new values, non-matching and later rows
(including the failing one) keep their old values, and the row count is
unchanged. -/
theorem c4_update_partial_failure (t : Table) (updates : Row) (cond : Option Condition)
    (herr : (t.updateRows updates cond).2.2.isSome = true) :
    (t.updateRows updates cond).1.rows.length = t.rows.length ∧
    ∃ j, j < t.rows.length ∧ rowMatches cond (rowAt t.rows j) = true ∧
      (t.updateRows updates cond).2.1
        = (t.rows.take j).countP (fun r => rowMatches cond r) ∧
      (∀ p, p < j →
        rowAt (t.updateRows updates cond).1.rows p =
          if rowMatches cond (rowAt t.rows p) then overlay (rowAt t.rows p) updates
          else rowAt t.rows p) ∧
      (∀ p, j ≤ p → rowAt (t.updateRows updates cond).1.rows p = rowAt t.rows p) := by
  rcases updateLoop_spec updates cond t.rows.length 0 0 t (by omega) (by omega)
    with ⟨hL, j, h0j, hjle, hnone, hsome, hcount, hout, hin⟩
  have herr2 : (Table.updateLoop updates cond t.rows.length 0 0 t).2.2.isSome = true := herr
  rcases hsome herr2 with ⟨hjlt, hjm⟩
  refine ⟨hL, j, hjlt, hjm, ?_, ?_, ?_⟩
  · rw [show (t.updateRows updates cond).2.1
        = (Table.updateLoop updates cond t.rows.length 0 0 t).2.1 from rfl,
      hcount, List.drop_zero, Nat.zero_add]
  · intro p hpj
    exact hin p (by omega) hpj
  · intro p hjp
    exact hout p (Or.inr hjp)

/-- Witness for C4: updating every `id` to 4 succeeds on the first row
and then collides with the just-written primary-key value. -/
theorem c4_update_partial_failure_witness :
    ((usersTable3.updateRows ⟨[("id", Value.int 4)]⟩ none).2.2.isSome = true) ∧
    ((usersTable3.updateRows ⟨[("id", Value.int 4)]⟩ none).1.rows.length
        = usersTable3.rows.length ∧
     ∃ j, j < usersTable3.rows.length ∧
       rowMatches none (rowAt usersTable3.rows j) = true ∧
       (usersTable3.updateRows ⟨[("id", Value.int 4)]⟩ none).2.1
         = (usersTable3.rows.take j).countP (fun r => rowMatches none r) ∧
       (∀ p, p < j →
         rowAt (usersTable3.updateRows ⟨[("id", Value.int 4)]⟩ none).1.rows p =
           if rowMatches none (rowAt usersTable3.rows p) then
             overlay (rowAt usersTable3.rows p) ⟨[("id", Value.int 4)]⟩
           else rowAt usersTable3.rows p) ∧
       (∀ p, j ≤ p →
         rowAt (usersTable3.updateRows ⟨[("id", Value.int 4)]⟩ none).1.rows p
           = rowAt usersTable3.rows p)) :=
  ⟨by decide,
   c4_update_partial_failure usersTable3 ⟨[("id", Value.int 4)]⟩ none (by decide)⟩

/-- C5, counterexample: the claim quantifies over every equality
condition, but for a nil condition value the index fast path returns no
rows while the full scan returns the rows storing an explicit nil — here
a consistent, reachable table where the two disagree. -/
theorem c5_select_counterexample :
    TableOK c5Table ∧
    (⟨"c", "=", Value.null⟩ : Condition).operator = "=" ∧
    c5Table.selectRows [] (some ⟨"c", "=", Value.null⟩) = [] ∧
    c5Table.scanRows [] (some ⟨"c", "=", Value.null⟩)
      = [⟨[("a", Value.int 1), ("c", Value.null)]⟩] :=
  ⟨tableOK_of_reachable c5Table_reachable, rfl, by decide, by decide⟩

/-- C5, amended: for an equality condition whose value is NOT nil, on a
table satisfying the index-consistency invariant, `Select` returns the
same set of result rows with the index fast path as with the full scan. -/
theorem c5_select_index_scan_amended (t : Table) (cols : List String) (cond : Condition)
    (hop : cond.operator = "=") (hok : TableOK t) (hnn : cond.value ≠ Value.null) :
    ∀ r, r ∈ t.selectRows cols (some cond) ↔ r ∈ t.scanRows cols (some cond) := by
  intro r
  unfold Table.selectRows Table.scanRows
  dsimp only
  rw [hop]
  rw [if_pos (show (("=" : String) == "=") = true from rfl)]
  cases hidx : t.getIndex cond.column with
  | none => exact Iff.rfl
  | some idx =>
    rw [List.mem_filterMap, List.mem_filterMap]
    constructor
    · rintro ⟨p, hp, hf⟩
      have hbound := ((hok cond.column idx hidx).1 cond.value p hp).2.1
      exact ⟨p, List.mem_range.mpr hbound, hf⟩
    · rintro ⟨p, hp, hf⟩
      rw [List.mem_range] at hp
      refine ⟨p, ?_, hf⟩
      cases hg : t.rows.get? p with
      | none =>
        rw [hg] at hf
        cases hf
      | some row =>
        rw [hg] at hf
        dsimp only at hf
        by_cases hm : rowMatches (some cond) row = true
        · have hval : row.get cond.column = some cond.value :=
            (evaluateCondition_eq_iff row cond hop).mp hm
          have hrow : rowAt t.rows p = row := by
            rw [rowAt_eq_getElem t.rows p hp]
            rw [List.get?_eq_getElem?, List.getElem?_eq_getElem hp] at hg
            exact Option.some.inj hg
          apply (hok cond.column idx hidx).2.1 cond.value p hp hnn
          rw [hrow]
          exact hval
        · rw [Bool.not_eq_true] at hm
          rw [show rowMatches (some cond) row = false from hm] at hf
          rw [if_neg (by simp)] at hf
          cases hf

/-- Witness for C5's amended statement on an indexed primary key. -/
theorem c5_select_index_scan_amended_witness :
    ((⟨"id", "=", Value.int 1⟩ : Condition).operator = "=" ∧
      (⟨"id", "=", Value.int 1⟩ : Condition).value ≠ Value.null) ∧
    (∀ r, r ∈ usersTable.selectRows [] (some ⟨"id", "=", Value.int 1⟩) ↔
      r ∈ usersTable.scanRows [] (some ⟨"id", "=", Value.int 1⟩)) :=
  ⟨⟨rfl, by decide⟩,
   c5_select_index_scan_amended usersTable [] ⟨"id", "=", Value.int 1⟩ rfl
     (tableOK_of_reachable usersTable_reachable) (by decide)⟩

/-- C7: for tables whose join columns exist and whose right-table indexes
are consistent, `InnerJoin` produces exactly one merged row per pair of a
left row with a present non-nil join value and a right row storing that
value (up to order), no output for a left row whose value is nil or
absent, and every key of every output row is qualified with a table
name. -/
theorem c7_inner_join (left right : Table) (leftTable rightTable : String)
    (jc : JoinCondition)
    (hL : left.hasColumn jc.leftColumn = true)
    (hR : right.hasColumn jc.rightColumn = true)
    (hok : TableOK right) :
    ∃ out, innerJoinRows left right leftTable rightTable jc [] = .ok out ∧
      out.Perm (left.rows.flatMap (fun leftRow =>
        match leftRow.get jc.leftColumn with
        | none => []
        | some v =>
          if v = Value.null then []
          else
            (joinPairs right.rows jc.rightColumn v).map
              (fun p => mergeRows leftRow (rowAt right.rows p) leftTable rightTable))) ∧
      (∀ r ∈ out, ∀ k ∈ r.entries.map Prod.fst,
        (∃ c, k = leftTable ++ "." ++ c) ∨ (∃ c, k = rightTable ++ "." ++ c)) := by
  have hjoin : innerJoinRows left right leftTable rightTable jc [] =
      .ok (left.rows.flatMap (fun leftRow =>
        match leftRow.get jc.leftColumn with
        | none => []
        | some leftValue =>
          if leftValue = Value.null then []
          else
            (match right.getIndex jc.rightColumn with
              | some idx => idx.lookup leftValue
              | none => joinPairs right.rows jc.rightColumn leftValue).filterMap
              (fun rightIdx =>
                match right.rows.get? rightIdx with
                | none => none
                | some rightRow =>
                  some (mergeRows leftRow rightRow leftTable rightTable)))) := by
    unfold innerJoinRows
    rw [if_neg (by simp [hL]), if_neg (by simp [hR])]
    dsimp only
    congr 1
  refine ⟨_, hjoin, ?_, ?_⟩
  · apply flatMap_perm_of_forall
    intro lr _
    cases hgl : lr.get jc.leftColumn with
    | none => exact List.Perm.refl _
    | some v =>
      dsimp only
      by_cases hv : v = Value.null
      · rw [if_pos hv, if_pos hv]
      · rw [if_neg hv, if_neg hv]
        cases hidx : right.getIndex jc.rightColumn with
        | none =>
          rw [filterMap_get?_eq_map right.rows
            (fun rr => mergeRows lr rr leftTable rightTable)
            (joinPairs right.rows jc.rightColumn v)
            (fun p hp => ((mem_joinPairs right.rows jc.rightColumn v p).mp hp).1)]
        | some idx =>
          rw [filterMap_get?_eq_map right.rows
            (fun rr => mergeRows lr rr leftTable rightTable)
            (idx.lookup v)
            (fun p hp => ((hok jc.rightColumn idx hidx).1 v p hp).2.1)]
          exact List.Perm.map _
            (bucket_perm_joinPairs (hok jc.rightColumn idx hidx) v hv)
  · intro r hr k hk
    rcases List.mem_flatMap.mp hr with ⟨lr, hlr, hrin⟩
    cases hgl : lr.get jc.leftColumn with
    | none =>
      rw [hgl] at hrin
      dsimp only at hrin
      cases hrin
    | some v =>
      rw [hgl] at hrin
      dsimp only at hrin
      by_cases hv : v = Value.null
      · rw [if_pos hv] at hrin
        cases hrin
      · rw [if_neg hv] at hrin
        rcases List.mem_filterMap.mp hrin with ⟨p, hp, hfp⟩
        cases hg : right.rows.get? p with
        | none =>
          rw [hg] at hfp
          cases hfp
        | some rr =>
          rw [hg] at hfp
          dsimp only at hfp
          cases hfp
          exact mergeRows_keys lr rr leftTable rightTable k hk

/-- Witness for C7 joining the posts table against the users table. -/
theorem c7_inner_join_witness :
    (postsTable.hasColumn "uid" = true ∧ usersTable.hasColumn "id" = true) ∧
    (∃ out, innerJoinRows postsTable usersTable "posts" "users" ⟨"uid", "id"⟩ [] = .ok out ∧
      out.Perm (postsTable.rows.flatMap (fun leftRow =>
        match leftRow.get "uid" with
        | none => []
        | some v =>
          if v = Value.null then []
          else
            (joinPairs usersTable.rows "id" v).map
              (fun p => mergeRows leftRow (rowAt usersTable.rows p) "posts" "users"))) ∧
      (∀ r ∈ out, ∀ k ∈ r.entries.map Prod.fst,
        (∃ c, k = "posts" ++ "." ++ c) ∨ (∃ c, k = "users" ++ "." ++ c))) :=
  ⟨⟨by decide, by decide⟩,
   c7_inner_join postsTable usersTable "posts" "users" ⟨"uid", "id"⟩
     (by decide) (by decide) (tableOK_of_reachable usersTable_reachable)⟩

end GoDB
